import Mathlib

/-!
Verification of the sigma-compress engine.

Shallow embedding of the `sigma-compress` Rust crate (multi-strategy byte
compression: Huffman, LZ4-style block wrapper, run-length, content dedup,
plus the adaptive method selector), together with proofs about the claims
of its specification.

Conventions of the embedding:
* bytes are modelled as `Nat` (with `< 256` hypotheses where the source
  relies on values being `u8`); machine-integer casts such as `as u32`
  are modelled by explicit `% 2 ^ 32`;
* `f64` values that the source only ever compares (`ratio`, the `0.1`
  repetition threshold) are modelled exactly over `ℚ`; the order-0
  Shannon entropy (irrational in general) is threaded through as an
  explicit parameter `e : ℚ`, matching how the source computes it once
  and only branches on threshold comparisons;
* the external DEFLATE collaborator of `lz4_wrapper.rs` (the `flate2`
  crate, not part of this repository; spec §6 specifies it only as an
  exact-inverse pair of block functions) is a pair of function
  parameters `encB decB : List Nat → Option (List Nat)`;
* fallible Rust code returns `Except CompressError`; decode paths that
  can hit an unchecked slice index additionally distinguish a `panic`
  outcome (`Res.panic`).
-/

namespace SigmaCompress

/-! ## Bit and byte utilities shared by the codecs -/

/-- The eight bits of a byte, least-significant first
(Rust: `(byte >> bit_idx) & 1 == 1` for `bit_idx in 0..8`). -/
def byteBits (b : Nat) : List Bool :=
  (List.range 8).map (fun i => b.testBit i)

/-- Pack up to eight bits (LSB-first) into one byte value
(Rust: `byte |= 1 << bit_pos`). -/
def bitsToByte : List Bool → Nat
  | [] => 0
  | b :: t => (if b then 1 else 0) + 2 * bitsToByte t

/-- Pack a bit list into bytes, LSB-first within each byte, the final
partial byte zero-padded (Rust bit packer in `huffman.rs`). -/
def packBits (l : List Bool) : List Nat :=
  if h : l = [] then []
  else bitsToByte (l.take 8) :: packBits (l.drop 8)
termination_by l.length
decreasing_by
  simp only [List.length_drop]
  cases l with
  | nil => exact absurd rfl h
  | cons a t => simp only [List.length_cons]; omega

/-- Little-endian 4-byte encoding of `n as u32` (Rust `u32::to_le_bytes`). -/
def u32le (n : Nat) : List Nat :=
  [n % 256, n / 256 % 256, n / 65536 % 256, n / 16777216 % 256]

/-- Little-endian read of 4 bytes (Rust `u32::from_le_bytes`). -/
def readU32 (b0 b1 b2 b3 : Nat) : Nat :=
  b0 + 256 * b1 + 65536 * b2 + 16777216 * b3

theorem readU32_u32le (n : Nat) (h : n < 2 ^ 32) :
    readU32 (n % 256) (n / 256 % 256) (n / 65536 % 256) (n / 16777216 % 256) = n := by
  simp only [readU32]
  omega

theorem u32le_cons (n : Nat) (s : List Nat) :
    u32le n ++ s =
      n % 256 :: n / 256 % 256 :: n / 65536 % 256 :: n / 16777216 % 256 :: s := rfl

theorem bitsToByte_lt (l : List Bool) : bitsToByte l < 2 ^ l.length := by
  induction l with
  | nil => simp [bitsToByte]
  | cons b t ih =>
    simp only [bitsToByte, List.length_cons, pow_succ]
    split <;> omega

theorem testBit_bitsToByte (l : List Bool) (i : Nat) :
    (bitsToByte l).testBit i = l.getD i false := by
  induction l generalizing i with
  | nil => simp [bitsToByte, Nat.zero_testBit]
  | cons b t ih =>
    cases i with
    | zero =>
      rw [Nat.testBit_zero]
      cases b <;> simp [bitsToByte] <;> omega
    | succ j =>
      rw [Nat.testBit_succ]
      have hdiv : ((if b then 1 else 0) + 2 * bitsToByte t) / 2 = bitsToByte t := by
        split <;> omega
      simp only [bitsToByte, hdiv]
      simp [ih]

theorem byteBits_bitsToByte (l : List Bool) (h : l.length ≤ 8) :
    byteBits (bitsToByte l) = l ++ List.replicate (8 - l.length) false := by
  apply List.ext_get?
  intro i
  by_cases hi : i < 8
  · have hbb : (byteBits (bitsToByte l)).get? i = some ((bitsToByte l).testBit i) := by
      rw [byteBits, List.get?_map, List.get?_range hi]
      rfl
    rw [hbb, testBit_bitsToByte]
    by_cases hil : i < l.length
    · rw [List.get?_append hil, List.get?_eq_get hil]
      simp [List.getD_eq_getElem?_getD, List.getElem?_eq_getElem hil]
    · rw [List.get?_append_right (by omega)]
      have hrep : i - l.length < 8 - l.length := by omega
      rw [List.get?_eq_get (by simpa using hrep)]
      simp [List.getD_eq_getElem?_getD, List.getElem?_eq_none (by omega : l.length ≤ i)]
  · have h1 : (byteBits (bitsToByte l)).get? i = none := by
      apply List.get?_eq_none.mpr
      simp [byteBits]
      omega
    have h2 : (l ++ List.replicate (8 - l.length) false).get? i = none := by
      apply List.get?_eq_none.mpr
      simp
      omega
    rw [h1, h2]

theorem byteBits_length (b : Nat) : (byteBits b).length = 8 := by
  simp [byteBits]

/-- Unpacking all packed bytes recovers the bits plus the zero padding
of the final partial byte. -/
theorem packBits_flatMap (l : List Bool) :
    (packBits l).flatMap byteBits = l ++ List.replicate ((8 - l.length % 8) % 8) false := by
  induction l using packBits.induct with
  | case1 => simp [packBits]
  | case2 l h ih =>
    rw [packBits, dif_neg h]
    rw [List.flatMap_cons, ih]
    by_cases h8 : l.length ≤ 8
    · have hd : l.drop 8 = [] := List.drop_eq_nil_of_le (by omega)
      have ht : l.take 8 = l := List.take_of_length_le (by omega)
      rw [hd, ht]
      simp only [List.length_nil, Nat.zero_mod, Nat.sub_zero, Nat.mod_self,
        List.replicate_zero, List.append_nil]
      rw [byteBits_bitsToByte l h8]
      have hlpos : 0 < l.length := List.length_pos.mpr h
      congr 1
      by_cases hex : l.length = 8
      · simp [hex]
      · have : l.length % 8 = l.length := Nat.mod_eq_of_lt (by omega)
        rw [this]
        congr 1
        omega
    · push_neg at h8
      have htl : (l.take 8).length = 8 := by simp [List.length_take]; omega
      rw [byteBits_bitsToByte (l.take 8) (by omega)]
      rw [htl]
      simp only [Nat.sub_self, List.replicate_zero, List.append_nil]
      rw [← List.append_assoc, List.take_append_drop]
      congr 2
      simp only [List.length_drop]
      omega

theorem packBits_length (l : List Bool) :
    (packBits l).length = (l.length + 7) / 8 := by
  induction l using packBits.induct with
  | case1 => simp [packBits]
  | case2 l h ih =>
    rw [packBits, dif_neg h]
    simp only [List.length_cons, ih, List.length_drop]
    have hlpos : 0 < l.length := List.length_pos.mpr h
    by_cases h8 : l.length < 8
    · have h1 : (l.length - 8 + 7) / 8 = 0 := Nat.div_eq_of_lt (by omega)
      have h2 : (l.length + 7) / 8 = 1 := Nat.div_eq_of_lt_le (by omega) (by omega)
      omega
    · push_neg at h8
      have harith : l.length - 8 + 7 = l.length - 1 := by omega
      rw [harith]
      have h2 : l.length + 7 = (l.length - 1) + 8 := by omega
      rw [h2, Nat.add_div_right _ (by omega)]

/-! ## Error and result types (`error.rs`) -/

/-- The error enumeration of `error.rs` (constructors used by the core). -/
inductive CompressError where
  | emptyInput : CompressError
  | invalidMethod : CompressError
  | huffmanError (msg : String) : CompressError
  | lz4Error (msg : String) : CompressError
  | entropyError (msg : String) : CompressError
  | semanticError (msg : String) : CompressError
deriving DecidableEq, Repr

/-- Outcome of a decode path: a Rust panic (unchecked out-of-bounds
index), an error return, or a successful value. -/
inductive Res (α : Type) where
  | panic : Res α
  | error (e : CompressError) : Res α
  | ok (val : α) : Res α
deriving DecidableEq, Repr

/-! ## Run-length codec (`entropy.rs`) -/

namespace entropy

/-- Length of the run of `b` at the head of `l`. -/
def runLen (b : Nat) : List Nat → Nat
  | [] => 0
  | x :: xs => if x = b then runLen b xs + 1 else 0

/-- `entropy::compress`: run-length encoding, runs capped at 255
(the source's `run < 255` loop guard). -/
def compress : List Nat → List Nat
  | [] => []
  | b :: rest =>
    let run := min 255 (1 + runLen b rest)
    run :: b :: compress (rest.drop (run - 1))
termination_by l => l.length
decreasing_by
  simp only [List.length_drop, List.length_cons]
  omega

/-- Expansion of `[run, byte]` pairs (the body of `entropy::decompress`). -/
def expand : List Nat → List Nat
  | r :: b :: rest => List.replicate r b ++ expand rest
  | _ => []

/-- `entropy::decompress`: rejects odd-length input, then expands pairs.
`original_size` is only used as a capacity hint in the source. -/
def decompress (data : List Nat) (_originalSize : Nat) : Res (List Nat) :=
  if data.length % 2 ≠ 0 then .error (.entropyError "invalid RLE data")
  else .ok (expand data)

theorem runLen_le_length (b : Nat) (l : List Nat) : runLen b l ≤ l.length := by
  induction l with
  | nil => simp [runLen]
  | cons x xs ih =>
    simp only [runLen]
    split <;> simp <;> omega

theorem take_runLen (b : Nat) (l : List Nat) (j : Nat) (hj : j ≤ runLen b l) :
    l.take j = List.replicate j b := by
  induction l generalizing j with
  | nil => simp [runLen] at hj; simp [hj]
  | cons x xs ih =>
    cases j with
    | zero => simp
    | succ k =>
      simp only [runLen] at hj
      split at hj
      · rename_i hx
        subst hx
        simp [List.replicate_succ, ih k (by omega)]
      · omega

theorem expand_compress_bounded :
    ∀ (n : Nat) (d : List Nat), d.length ≤ n → expand (compress d) = d := by
  intro n
  induction n with
  | zero =>
    intro d hd
    have : d = [] := List.length_eq_zero.mp (by omega)
    subst this
    simp [compress, expand]
  | succ n ih =>
    intro d hd
    cases d with
    | nil => simp [compress, expand]
    | cons b rest =>
      simp only [compress, expand]
      have hrl : runLen b rest ≤ rest.length := runLen_le_length b rest
      set run := min 255 (1 + runLen b rest) with hrun
      have hrun1 : 1 ≤ run := by omega
      have htk : rest.take (run - 1) = List.replicate (run - 1) b := by
        apply take_runLen
        omega
      have hlen : (rest.drop (run - 1)).length ≤ n := by
        simp only [List.length_drop]
        simp only [List.length_cons] at hd
        omega
      rw [ih _ hlen]
      have hrep : List.replicate run b = b :: List.replicate (run - 1) b := by
        cases hr : run with
        | zero => omega
        | succ k => simp [List.replicate_succ]
      rw [hrep, ← htk]
      simp [List.take_append_drop]

theorem expand_compress (d : List Nat) : expand (compress d) = d :=
  expand_compress_bounded d.length d le_rfl

theorem compress_length_even_bounded :
    ∀ (n : Nat) (d : List Nat), d.length ≤ n → (compress d).length % 2 = 0 := by
  intro n
  induction n with
  | zero =>
    intro d hd
    have : d = [] := List.length_eq_zero.mp (by omega)
    subst this
    simp [compress]
  | succ n ih =>
    intro d hd
    cases d with
    | nil => simp [compress]
    | cons b rest =>
      simp only [compress, List.length_cons]
      have hlen : (rest.drop (min 255 (1 + runLen b rest) - 1)).length ≤ n := by
        simp only [List.length_drop]
        simp only [List.length_cons] at hd
        omega
      have := ih _ hlen
      omega

theorem compress_length_even (d : List Nat) : (compress d).length % 2 = 0 :=
  compress_length_even_bounded d.length d le_rfl

/-- The run-length codec round-trips on every byte buffer. -/
theorem decompress_compress (d : List Nat) :
    decompress (compress d) d.length = .ok d := by
  simp [decompress, compress_length_even, expand_compress]

end entropy

/-! ## Fixed-size chunking (Rust `slice::chunks`) -/

/-- `data.chunks(bs)` : successive blocks of `bs` bytes, the last one
possibly shorter. (`bs = 0` is unreachable in the source: every call
site passes 64 or a positive configured block size.) -/
def chunksOfB (bs : Nat) (l : List Nat) : List (List Nat) :=
  if h : l = [] ∨ bs = 0 then []
  else l.take bs :: chunksOfB bs (l.drop bs)
termination_by l.length
decreasing_by
  simp only [List.length_drop]
  rcases Nat.eq_zero_or_pos l.length with hz | hp
  · exact absurd (List.length_eq_zero.mp hz) (by tauto)
  · have : bs ≠ 0 := by tauto
    omega

theorem chunksOfB_flatten (bs : Nat) (l : List Nat) :
    (chunksOfB bs l).flatten = if bs = 0 then [] else l := by
  induction l using chunksOfB.induct bs with
  | case1 l h =>
    rw [chunksOfB, dif_pos h]
    rcases h with h | h
    · subst h; simp
    · simp [h]
  | case2 l h ih =>
    rw [chunksOfB, dif_neg h]
    push_neg at h
    simp only [List.flatten_cons, ih, if_neg h.2]
    exact List.take_append_drop bs l

theorem chunksOfB_length_le (bs : Nat) (l : List Nat) (hbs : 0 < bs) :
    (chunksOfB bs l).length ≤ l.length := by
  induction l using chunksOfB.induct bs with
  | case1 l h => rw [chunksOfB, dif_pos h]; simp
  | case2 l h ih =>
    rw [chunksOfB, dif_neg h]
    push_neg at h
    have hpos : 0 < l.length := List.length_pos.mpr h.1
    simp only [List.length_cons]
    simp only [List.length_drop] at ih
    omega

theorem chunksOfB_mem_length (bs : Nat) (l : List Nat) (c : List Nat)
    (hc : c ∈ chunksOfB bs l) : c.length ≤ bs ∧ c ≠ [] := by
  induction l using chunksOfB.induct bs with
  | case1 l h => rw [chunksOfB, dif_pos h] at hc; simp at hc
  | case2 l h ih =>
    rw [chunksOfB, dif_neg h] at hc
    push_neg at h
    have hpos : 0 < l.length := List.length_pos.mpr h.1
    rcases List.mem_cons.mp hc with rfl | hc
    · refine ⟨by simp [List.length_take], ?_⟩
      intro hemp
      have h0 : (l.take bs).length = 0 := by rw [hemp]; rfl
      rw [List.length_take] at h0
      have hbs0 : bs ≠ 0 := h.2
      omega
    · exact ih hc

/-! ## Content-addressable dedup codec (`semantic.rs`) -/
namespace semantic

/-- First index of `c` in `u` (Rust: the `HashMap` entry already holding
the block's first-seen index). -/
def idxOfBlock (c : List Nat) : List (List Nat) → Nat
  | [] => 0
  | x :: xs => if x = c then 0 else idxOfBlock c xs + 1

theorem idxOfBlock_get? (c : List Nat) (u : List (List Nat)) (h : c ∈ u) :
    u.get? (idxOfBlock c u) = some c := by
  induction u with
  | nil => simp at h
  | cons x xs ih =>
    rw [idxOfBlock]
    by_cases hx : x = c
    · simp [hx]
    · rcases List.mem_cons.mp h with h1 | h1
      · exact absurd h1.symm hx
      · rw [if_neg hx, List.get?_cons_succ]
        exact ih h1

/-- The block-dedup loop of `semantic::compress`: for each chunk, reuse
the index of an identical earlier block or append a fresh one
(Rust `unique_blocks.entry(key).or_insert(idx)`), recording one
reference per chunk. -/
def dedup : List (List Nat) → List (List Nat) → List Nat → List (List Nat) × List Nat
  | [], u, refs => (u, refs)
  | c :: cks, u, refs =>
    if c ∈ u then dedup cks u (refs ++ [idxOfBlock c u])
    else dedup cks (u ++ [c]) (refs ++ [u.length])

/-- `semantic::compress`: 64-byte blocks, unique-block table in first-seen
order, then the reference list; all counts and lengths written `as u32`
little-endian (`u32le` truncates exactly like the cast). -/
def compress (data : List Nat) (_threshold : ℚ) : List Nat :=
  let cks := chunksOfB 64 data
  let p := dedup cks [] []
  u32le p.1.length ++ p.1.flatMap (fun blk => u32le blk.length ++ blk) ++
    u32le p.2.length ++ p.2.flatMap (fun r => u32le r)

/-- Table parser of `semantic::decompress`: `num_unique` length-prefixed
blocks, each read bound-checked. -/
def readBlocks : Nat → List Nat → Res (List (List Nat) × List Nat)
  | 0, s => .ok ([], s)
  | c + 1, s =>
    match s with
    | b0 :: b1 :: b2 :: b3 :: rest =>
      let blen := readU32 b0 b1 b2 b3
      if rest.length < blen then .error (.semanticError "truncated block")
      else
        match readBlocks c (rest.drop blen) with
        | .ok (bs, r) => .ok (rest.take blen :: bs, r)
        | .error e => .error e
        | .panic => .panic
    | _ => .error (.semanticError "truncated")

/-- Reference-list loop of `semantic::decompress`: each `u32` index is
range-checked, then the referenced block is appended to the output. -/
def readRefs (blocks : List (List Nat)) : Nat → List Nat → Res (List Nat)
  | 0, _ => .ok []
  | c + 1, s =>
    match s with
    | b0 :: b1 :: b2 :: b3 :: rest =>
      let idx := readU32 b0 b1 b2 b3
      if h : idx < blocks.length then
        match readRefs blocks c rest with
        | .ok out => .ok (blocks.get ⟨idx, h⟩ ++ out)
        | .error e => .error e
        | .panic => .panic
      else .error (.semanticError "invalid ref")
    | _ => .error (.semanticError "truncated ref")

/-- Continuation of `semantic::decompress` after the unique-block table:
read the reference count and run the reference loop. -/
def afterBlocks : Res (List (List Nat) × List Nat) → Res (List Nat)
  | .ok (blocks, c0 :: c1 :: c2 :: c3 :: r3) => readRefs blocks (readU32 c0 c1 c2 c3) r3
  | .ok (_, _) => .error (.semanticError "missing refs")
  | .error e => .error e
  | .panic => .panic

/-- `semantic::decompress` (the `original_size` argument is unused in the
source). -/
def decompress (data : List Nat) (_originalSize : Nat) : Res (List Nat) :=
  match data with
  | b0 :: b1 :: b2 :: b3 :: rest => afterBlocks (readBlocks (readU32 b0 b1 b2 b3) rest)
  | _ => .error (.semanticError "data too short")

theorem readBlocks_serialize :
    ∀ (u : List (List Nat)) (suffix : List Nat),
      (∀ blk ∈ u, blk.length < 2 ^ 32) →
      readBlocks u.length ((u.flatMap fun blk => u32le blk.length ++ blk) ++ suffix) =
        .ok (u, suffix) := by
  intro u
  induction u with
  | nil => intro suffix _; simp [readBlocks]
  | cons blk tl ih =>
    intro suffix hb
    have hblen : blk.length < 2 ^ 32 := hb blk (by simp)
    simp only [List.flatMap_cons, List.length_cons, List.append_assoc]
    rw [u32le_cons]
    simp only [readBlocks]
    rw [readU32_u32le blk.length hblen]
    rw [if_neg (by simp only [List.length_append]; omega)]
    rw [List.take_left, List.drop_left]
    rw [ih suffix (fun b hm => hb b (by simp [hm]))]

theorem prefix_get? {α : Type} (l1 l2 : List α) (h : l1 <+: l2) (n : Nat)
    (hn : n < l1.length) : l2.get? n = l1.get? n := by
  obtain ⟨t, rfl⟩ := h
  exact List.get?_append hn

theorem dedup_spec :
    ∀ (cks : List (List Nat)) (u₀ : List (List Nat)) (refs₀ : List Nat),
      (dedup cks u₀ refs₀).1.length ≤ u₀.length + cks.length ∧
      u₀ <+: (dedup cks u₀ refs₀).1 ∧
      (∀ blk ∈ (dedup cks u₀ refs₀).1, blk ∈ u₀ ∨ blk ∈ cks) ∧
      ∃ rNew, (dedup cks u₀ refs₀).2 = refs₀ ++ rNew ∧ rNew.length = cks.length ∧
        ∀ i c, cks.get? i = some c →
          ∃ r, rNew.get? i = some r ∧ (dedup cks u₀ refs₀).1.get? r = some c := by
  intro cks
  induction cks with
  | nil =>
    intro u₀ refs₀
    refine ⟨by simp [dedup], by simp [dedup], by simp [dedup], [], by simp [dedup], rfl, ?_⟩
    intro i c hc
    simp at hc
  | cons c cks ih =>
    intro u₀ refs₀
    by_cases hmem : c ∈ u₀
    · simp only [dedup, if_pos hmem]
      obtain ⟨hlen, hpre, hsub, rNew, hrefs, hrlen, hidx⟩ :=
        ih u₀ (refs₀ ++ [idxOfBlock c u₀])
      refine ⟨(by simp only [List.length_cons]; omega), hpre, ?_, idxOfBlock c u₀ :: rNew,
        (by simp [hrefs]), (by simp [hrlen]), ?_⟩
      · intro blk hblk
        rcases hsub blk hblk with h | h
        · exact Or.inl h
        · exact Or.inr (by simp [h])
      · intro i cc hcc
        cases i with
        | zero =>
          simp only [List.get?_cons_zero, Option.some.injEq] at hcc ⊢
          refine ⟨idxOfBlock c u₀, rfl, ?_⟩
          have hg : u₀.get? (idxOfBlock c u₀) = some c := idxOfBlock_get? c u₀ hmem
          have hidxlt : idxOfBlock c u₀ < u₀.length := (List.get?_eq_some.mp hg).choose
          rw [prefix_get? u₀ _ hpre _ hidxlt, hg, hcc]
        | succ j =>
          simp only [List.get?_cons_succ] at hcc ⊢
          exact hidx j cc hcc
    · simp only [dedup, if_neg hmem]
      obtain ⟨hlen, hpre, hsub, rNew, hrefs, hrlen, hidx⟩ :=
        ih (u₀ ++ [c]) (refs₀ ++ [u₀.length])
      have hpre0 : u₀ <+: (u₀ ++ [c]) := ⟨[c], rfl⟩
      refine ⟨(by simp at hlen ⊢; omega),
        hpre0.trans hpre, ?_, u₀.length :: rNew, (by simp [hrefs]), (by simp [hrlen]), ?_⟩
      · intro blk hblk
        rcases hsub blk hblk with h | h
        · rcases List.mem_append.mp h with h1 | h1
          · exact Or.inl h1
          · simp at h1
            exact Or.inr (by simp [h1])
        · exact Or.inr (by simp [h])
      · intro i cc hcc
        cases i with
        | zero =>
          simp only [List.get?_cons_zero, Option.some.injEq] at hcc ⊢
          refine ⟨u₀.length, rfl, ?_⟩
          have hlt : u₀.length < (u₀ ++ [c]).length := by simp
          rw [prefix_get? _ _ hpre _ hlt, List.get?_concat_length, hcc]
        | succ j =>
          simp only [List.get?_cons_succ] at hcc ⊢
          exact hidx j cc hcc

theorem readRefs_serialize (blocks : List (List Nat)) :
    ∀ (rs : List Nat) (suffix : List Nat),
      (∀ i r, rs.get? i = some r → r < blocks.length ∧ r < 2 ^ 32) →
      readRefs blocks rs.length ((rs.flatMap fun r => u32le r) ++ suffix) =
        .ok ((rs.map fun r => (blocks.get? r).getD []).flatten) := by
  intro rs
  induction rs with
  | nil => intro suffix _; simp [readRefs]
  | cons r tl ih =>
    intro suffix hr
    have hr0 := hr 0 r (by simp)
    simp only [List.flatMap_cons, List.length_cons, List.append_assoc]
    rw [u32le_cons]
    simp only [readRefs]
    rw [readU32_u32le r hr0.2]
    rw [dif_pos hr0.1]
    rw [ih suffix (fun i rr hrr => hr (i + 1) rr (by simpa using hrr))]
    simp only [List.map_cons, List.flatten_cons, Res.ok.injEq]
    congr 1
    rw [List.get?_eq_get hr0.1]
    simp

/-- The dedup codec round-trips: for every byte buffer of length below
`2 ^ 32` (so the `as u32` casts in the wire format cannot truncate),
decompressing the compressed form returns the original buffer. -/
theorem semantic_roundtrip (d : List Nat) (hlen : d.length < 2 ^ 32) (θ : ℚ) :
    decompress (compress d θ) d.length = .ok d := by
  have hd := dedup_spec (chunksOfB 64 d) [] []
  set cks := chunksOfB 64 d with hcks
  obtain ⟨hulen, -, husub, rNew, hrefs, hrlen, hidx⟩ := hd
  set u := (dedup cks [] []).1 with hu
  set refs := (dedup cks [] []).2 with hrefsdef
  have hckslen : cks.length ≤ d.length := chunksOfB_length_le 64 d (by norm_num)
  have hulen32 : u.length < 2 ^ 32 := by simp at hulen; omega
  have hreflen : refs.length = cks.length := by rw [hrefs]; simp [hrlen]
  have hreflen32 : refs.length < 2 ^ 32 := by omega
  have hblk32 : ∀ blk ∈ u, blk.length < 2 ^ 32 := by
    intro blk hblk
    rcases husub blk hblk with h | h
    · simp at h
    · have := chunksOfB_mem_length 64 d blk h
      omega
  have hrbound : ∀ i r, refs.get? i = some r → r < u.length ∧ r < 2 ^ 32 := by
    intro i r hir
    rw [hrefs] at hir
    simp only [List.nil_append] at hir
    have hi : i < rNew.length := (List.get?_eq_some.mp hir).choose
    have hic : i < cks.length := by omega
    have hc : cks.get? i = some (cks.get ⟨i, hic⟩) := List.get?_eq_get hic
    obtain ⟨r2, hr2, hur2⟩ := hidx i _ hc
    have hrr : r = r2 := by
      rw [hir] at hr2
      exact Option.some.inj hr2
    subst hrr
    have hrlt : r < u.length := (List.get?_eq_some.mp hur2).choose
    exact ⟨hrlt, by omega⟩
  have hcomp : compress d θ =
      u32le u.length ++ ((u.flatMap fun blk => u32le blk.length ++ blk) ++
        (u32le refs.length ++ ((refs.flatMap fun r => u32le r) ++ []))) := by
    simp only [compress, ← hcks, ← hu, ← hrefsdef, List.append_assoc, List.append_nil]
  rw [hcomp]
  rw [u32le_cons u.length]
  simp only [decompress]
  rw [readU32_u32le u.length hulen32]
  rw [readBlocks_serialize u _ hblk32]
  rw [u32le_cons refs.length]
  simp only [afterBlocks]
  rw [readU32_u32le refs.length hreflen32]
  rw [readRefs_serialize u refs [] hrbound]
  have hmap : (refs.map fun r => (u.get? r).getD []) = cks := by
    apply List.ext_get?
    intro n
    rw [List.get?_map]
    by_cases hn : n < cks.length
    · have hc : cks.get? n = some (cks.get ⟨n, hn⟩) := List.get?_eq_get hn
      obtain ⟨r, hr, hur⟩ := hidx n _ hc
      rw [hrefs]
      simp only [List.nil_append]
      rw [hr, hc]
      simp only [Option.map_some']
      rw [hur]
      rfl
    · have h1 : refs.get? n = none := List.get?_eq_none.mpr (by omega)
      have h2 : cks.get? n = none := List.get?_eq_none.mpr (by omega)
      rw [hrefs] at h1
      simp only [List.nil_append] at h1
      rw [hrefs]
      simp only [List.nil_append]
      rw [h1, h2]
      rfl
  rw [hmap]
  rw [hcks, chunksOfB_flatten]
  norm_num

end semantic

/-! ## LZ4-style block wrapper (`lz4_wrapper.rs`)

The per-block compressor/decompressor (`lz4_compress_block` /
`lz4_decompress_block`, implemented by the external `flate2` crate) is
abstracted as a parameter pair `encB decB : List Nat → Option (List Nat)`,
per spec §6 which requires only that the pair be exact inverses on
produced blocks. -/

namespace lz4_wrapper

theorem chunksOfB_length_eq (bs : Nat) (l : List Nat) (hbs : 0 < bs) :
    (chunksOfB bs l).length = (l.length + bs - 1) / bs := by
  induction l using chunksOfB.induct bs with
  | case1 l h =>
    rw [chunksOfB, dif_pos h]
    rcases h with h | h
    · subst h
      have hz : (bs - 1) / bs = 0 := Nat.div_eq_of_lt (by omega)
      simpa using hz.symm
    · omega
  | case2 l h ih =>
    rw [chunksOfB, dif_neg h]
    push_neg at h
    have hn : 0 < l.length := List.length_pos.mpr h.1
    simp only [List.length_cons, List.length_drop] at ih ⊢
    by_cases hc : l.length ≤ bs
    · have hz : l.length - bs = 0 := by omega
      rw [hz] at ih
      have h0 : (0 + bs - 1) / bs = 0 := Nat.div_eq_of_lt (by omega)
      rw [h0] at ih
      have h1 : (l.length + bs - 1) / bs = 1 :=
        Nat.div_eq_of_lt_le (by omega) (by omega)
      omega
    · push_neg at hc
      have harith : l.length - bs + bs - 1 = l.length - 1 := by omega
      rw [harith] at ih
      have h2 : l.length + bs - 1 = (l.length - 1) + bs := by omega
      rw [h2, Nat.add_div_right _ hbs]
      omega

/-- Per-chunk loop of `lz4_wrapper::compress`: each chunk is encoded by
the collaborator and framed as `[orig_len:u32][comp_len:u32][bytes]`. -/
def compressBlocks (encB : List Nat → Option (List Nat)) :
    List (List Nat) → Option (List Nat)
  | [] => some []
  | c :: cks =>
    match encB c with
    | some comp =>
      match compressBlocks encB cks with
      | some rest => some (u32le c.length ++ (u32le comp.length ++ (comp ++ rest)))
      | none => none
    | none => none

/-- `lz4_wrapper::compress`: block-count header, then the framed blocks.
A collaborator failure surfaces as an `Lz4Error` (the source wraps the
collaborator's own message). -/
def compress (encB : List Nat → Option (List Nat)) (blockSize : Nat)
    (data : List Nat) : Except CompressError (List Nat) :=
  let numBlocks := (data.length + blockSize - 1) / blockSize
  match compressBlocks encB (chunksOfB blockSize data) with
  | some body => .ok (u32le numBlocks ++ body)
  | none => .error (.lz4Error "block error")

/-- Block loop of `lz4_wrapper::decompress`: for each of the counted
blocks read the (ignored) original length, the compressed length, the
bound-checked payload, and hand it to the collaborator. -/
def readLzBlocks (decB : List Nat → Option (List Nat)) :
    Nat → List Nat → Res (List Nat)
  | 0, _ => .ok []
  | c + 1, s =>
    match s with
    | a0 :: a1 :: a2 :: a3 :: b0 :: b1 :: b2 :: b3 :: rest =>
      let _origLen := readU32 a0 a1 a2 a3
      let compLen := readU32 b0 b1 b2 b3
      if rest.length < compLen then .error (.lz4Error "truncated block data")
      else
        match decB (rest.take compLen) with
        | some blk =>
          match readLzBlocks decB c (rest.drop compLen) with
          | .ok out => .ok (blk ++ out)
          | .error e => .error e
          | .panic => .panic
        | none => .error (.lz4Error "block error")
    | _ => .error (.lz4Error "truncated block header")

/-- `lz4_wrapper::decompress` (the `original_size` argument is only a
capacity hint in the source). -/
def decompress (decB : List Nat → Option (List Nat)) (data : List Nat)
    (_originalSize : Nat) : Res (List Nat) :=
  match data with
  | b0 :: b1 :: b2 :: b3 :: rest => readLzBlocks decB (readU32 b0 b1 b2 b3) rest
  | _ => .error (.lz4Error "data too short")

theorem u32le_cons8 (m n : Nat) (s : List Nat) :
    u32le m ++ (u32le n ++ s) =
      m % 256 :: m / 256 % 256 :: m / 65536 % 256 :: m / 16777216 % 256 ::
      n % 256 :: n / 256 % 256 :: n / 65536 % 256 :: n / 16777216 % 256 :: s := rfl

theorem compressBlocks_roundtrip (encB decB : List Nat → Option (List Nat))
    (bs : Nat)
    (henc : ∀ b, b ≠ [] → b.length ≤ bs →
      ∃ c, encB b = some c ∧ decB c = some b ∧ c.length < 2 ^ 32) :
    ∀ (cks : List (List Nat)), (∀ c ∈ cks, c ≠ [] ∧ c.length ≤ bs) →
      ∃ body, compressBlocks encB cks = some body ∧
        ∀ suffix, readLzBlocks decB cks.length (body ++ suffix) = .ok cks.flatten := by
  intro cks
  induction cks with
  | nil =>
    intro _
    exact ⟨[], rfl, fun suffix => by simp [readLzBlocks]⟩
  | cons c cks ih =>
    intro hc
    obtain ⟨comp, hec, hdc, hclen⟩ := henc c (hc c (by simp)).1 (hc c (by simp)).2
    obtain ⟨tl, htl, hread⟩ := ih (fun b hb => hc b (by simp [hb]))
    refine ⟨u32le c.length ++ (u32le comp.length ++ (comp ++ tl)), ?_, ?_⟩
    · rw [compressBlocks, hec, htl]
    · intro suffix
      simp only [List.length_cons, List.append_assoc]
      rw [u32le_cons8]
      simp only [readLzBlocks]
      rw [readU32_u32le comp.length hclen]
      rw [if_neg (by simp only [List.length_append]; omega)]
      rw [List.take_left, List.drop_left, hdc, hread suffix]
      simp

/-- The block wrapper round-trips for every non-empty buffer of length
below `2 ^ 32` and positive block size, provided the external block
codec is an exact inverse on the blocks it produces. -/
theorem lz4_roundtrip (encB decB : List Nat → Option (List Nat)) (bs : Nat)
    (d : List Nat) (hbs : 0 < bs) (hlen : d.length < 2 ^ 32)
    (henc : ∀ b, b ≠ [] → b.length ≤ bs →
      ∃ c, encB b = some c ∧ decB c = some b ∧ c.length < 2 ^ 32) :
    ∃ out, compress encB bs d = .ok out ∧ decompress decB out d.length = .ok d := by
  have hcksmem : ∀ c ∈ chunksOfB bs d, c ≠ [] ∧ c.length ≤ bs := by
    intro c hc
    have := chunksOfB_mem_length bs d c hc
    exact ⟨this.2, this.1⟩
  obtain ⟨body, hbody, hread⟩ := compressBlocks_roundtrip encB decB bs henc _ hcksmem
  have hnb : (d.length + bs - 1) / bs = (chunksOfB bs d).length :=
    (chunksOfB_length_eq bs d hbs).symm
  have hnb32 : (chunksOfB bs d).length < 2 ^ 32 := by
    have := chunksOfB_length_le bs d hbs
    omega
  refine ⟨u32le ((d.length + bs - 1) / bs) ++ body, ?_, ?_⟩
  · rw [compress]
    simp only [hbody]
  · rw [u32le_cons _ body]
    simp only [decompress]
    rw [hnb, readU32_u32le _ hnb32]
    have := hread []
    rw [List.append_nil] at this
    rw [this]
    rw [chunksOfB_flatten]
    simp only [if_neg (by omega : ¬ bs = 0)]

end lz4_wrapper

/-! ## Huffman codec (`huffman.rs`) -/

namespace huffman

/-- Nodes of the Huffman tree. The Rust struct stores
`symbol : Option<u8>` with `Option<Box>` children; every node the
program builds is either a childless node (`leaf`, carrying
`Some(symbol)` for real leaves and `None` for the zero-frequency
placeholder) or an inner node with two children and no symbol. -/
inductive HuffNode where
  | leaf (freq : Nat) (symbol : Option Nat) : HuffNode
  | node (freq : Nat) (left right : HuffNode) : HuffNode
deriving DecidableEq, Repr

def HuffNode.freq : HuffNode → Nat
  | .leaf f _ => f
  | .node f _ _ => f

/-- Extraction of a minimal-frequency element (the Rust `BinaryHeap`
ordered by reversed frequency; tie order inside the heap is
unspecified, modelled deterministically as first-minimal). -/
def popMin : List HuffNode → Option (HuffNode × List HuffNode)
  | [] => none
  | t :: ts =>
    match popMin ts with
    | some (m, rest) => if t.freq ≤ m.freq then some (t, ts) else some (m, t :: rest)
    | none => some (t, ts)

theorem popMin_length :
    ∀ (l : List HuffNode) (a : HuffNode) (r : List HuffNode),
      popMin l = some (a, r) → r.length + 1 = l.length := by
  intro l
  induction l with
  | nil => intro a r h; simp [popMin] at h
  | cons t ts ih =>
    intro a r h
    rw [popMin] at h
    cases hp : popMin ts with
    | some p =>
      obtain ⟨m, rest⟩ := p
      rw [hp] at h
      simp only at h
      split at h
      · cases h; simp
      · cases h
        have := ih _ _ hp
        simp only [List.length_cons] at this ⊢
        omega
    | none =>
      rw [hp] at h
      simp only [Option.some.injEq, Prod.mk.injEq] at h
      simp [← h.2]

theorem popMin_perm :
    ∀ (l : List HuffNode) (a : HuffNode) (r : List HuffNode),
      popMin l = some (a, r) → l.Perm (a :: r) := by
  intro l
  induction l with
  | nil => intro a r h; simp [popMin] at h
  | cons t ts ih =>
    intro a r h
    rw [popMin] at h
    cases hp : popMin ts with
    | some p =>
      obtain ⟨m, rest⟩ := p
      rw [hp] at h
      simp only at h
      split at h
      · cases h
        exact List.Perm.refl _
      · cases h
        have hperm := ih _ _ hp
        exact (hperm.cons t).trans (List.Perm.swap _ _ _)
    | none =>
      rw [hp] at h
      simp only [Option.some.injEq, Prod.mk.injEq] at h
      rw [← h.1, ← h.2]

theorem popMin_isSome (l : List HuffNode) (h : l ≠ []) : (popMin l).isSome := by
  cases l with
  | nil => exact absurd rfl h
  | cons t ts =>
    rw [popMin]
    cases hp : popMin ts with
    | some p =>
      obtain ⟨m, rest⟩ := p
      simp only
      split <;> simp
    | none => simp

/-- The merge loop of `build_tree` (`while heap.len() > 1`), with an
explicit fuel for structural recursion: each iteration shrinks the heap
by one, so fuel equal to the initial heap size never runs out
(`buildLoop` below supplies it). -/
def buildLoopF : Nat → List HuffNode → Option HuffNode
  | _, [] => none
  | _, [t] => some t
  | 0, _ :: _ :: _ => none
  | fuel + 1, t1 :: t2 :: ts =>
    match popMin (t1 :: t2 :: ts) with
    | none => none
    | some (l, r1) =>
      match popMin r1 with
      | none => none
      | some (r, r2) => buildLoopF fuel (r2 ++ [.node (l.freq + r.freq) l r])

/-- The merge loop of `build_tree`: repeatedly pop the two
lowest-frequency nodes and push their merge, until one node remains. -/
def buildLoop (h : List HuffNode) : Option HuffNode :=
  buildLoopF h.length h

/-- The frequency-sorted leaf set: one leaf per byte value with nonzero
count, in byte order (the Rust histogram enumeration). -/
def initLeaves (data : List Nat) : List HuffNode :=
  ((List.range 256).filter (fun i => 0 < data.count i)).map
    (fun i => .leaf (data.count i) (some i))

/-- `huffman::build_tree`: `None` on an empty histogram; the
single-symbol case synthesizes a parent with a zero-frequency
placeholder sibling; otherwise the merge loop runs. -/
def build_tree (data : List Nat) : Option HuffNode :=
  match initLeaves data with
  | [] => none
  | [l] => some (.node l.freq l (.leaf 0 none))
  | l1 :: l2 :: ls => buildLoop (l1 :: l2 :: ls)

/-- `huffman::build_codes`: depth-first walk, left edge bit 0, right
edge bit 1; a symbol node emits its path (or the single bit 0 at the
root); the placeholder (no symbol, no children) emits nothing. -/
def buildCodes : HuffNode → List Bool → List (Nat × List Bool)
  | .leaf _ (some s), pre => [(s, if pre.isEmpty then [false] else pre)]
  | .leaf _ none, _ => []
  | .node _ l r, pre => buildCodes l (pre ++ [false]) ++ buildCodes r (pre ++ [true])

/-- `huffman::compress`: `[num_symbols:u16 LE]` then per symbol
`[byte, code_len, packed code bits]`, then `[data_len:u32 LE]`, then
the packed payload bits. The source iterates the code `HashMap` in
unspecified order; the embedding fixes the DFS insertion order (the
table is explicit on the wire, so decode is order-independent). -/
def compress (data : List Nat) : Option (List Nat) :=
  match build_tree data with
  | none => none
  | some tree =>
    let codes := buildCodes tree []
    let table := codes.flatMap (fun sc => sc.1 :: (sc.2.length % 256) :: packBits sc.2)
    let bits := data.flatMap (fun b => (List.lookup b codes).getD [])
    some ((codes.length % 256) :: (codes.length / 256 % 256) ::
      (table ++ (u32le data.length ++ packBits bits)))

/-- `HashMap::insert` on an association list keyed by the code. -/
def insertA (k : List Bool) (v : Nat) : List (List Bool × Nat) → List (List Bool × Nat)
  | [] => [(k, v)]
  | e :: rest => if e.1 = k then (k, v) :: rest else e :: insertA k v rest

/-- Code-table parser of `huffman::decompress`. The source checks
`pos >= data.len()` before reading the symbol byte but reads the
code-length byte without a bounds check: one trailing byte is an
out-of-bounds index (`Res.panic`). -/
def readTable : Nat → List Nat → List (List Bool × Nat) →
    Res (List (List Bool × Nat) × List Nat)
  | 0, s, tbl => .ok (tbl, s)
  | _ + 1, [], _ => .error (.huffmanError "truncated table")
  | _ + 1, [_], _ => .panic
  | c + 1, sym :: clen :: rest, tbl =>
    let nb := (clen + 7) / 8
    if rest.length < nb then .error (.huffmanError "truncated code")
    else
      let code := ((rest.take nb).flatMap byteBits).take clen
      readTable c (rest.drop nb) (insertA code sym tbl)

/-- The bit-decoding loop of `huffman::decompress`: accumulate bits,
emit on an exact table match, break out of both loops once
`original_size` symbols are out. -/
def decodeAux (tbl : List (List Bool × Nat)) (orig : Nat) :
    List Bool → List Bool → List Nat → List Nat
  | [], _, out => out
  | bit :: restBits, cur, out =>
    match List.lookup (cur ++ [bit]) tbl with
    | some s =>
      if orig ≤ (out ++ [s]).length then out ++ [s]
      else decodeAux tbl orig restBits [] (out ++ [s])
    | none => decodeAux tbl orig restBits (cur ++ [bit]) out

/-- `huffman::decompress`: 2-byte symbol count, the code table, the
4-byte stored length (read then ignored), then the bit-decode loop. -/
def decompress (data : List Nat) (originalSize : Nat) : Res (List Nat) :=
  match data with
  | b0 :: b1 :: rest =>
    match readTable (b0 + 256 * b1) rest [] with
    | .ok (tbl, rest2) =>
      if rest2.length < 4 then .error (.huffmanError "missing data length")
      else .ok (decodeAux tbl originalSize ((rest2.drop 4).flatMap byteBits) [] [])
    | .error e => .error e
    | .panic => .panic
  | _ => .error (.huffmanError "data too short")

/-! ### Structural view of a Huffman tree: leaf symbols and root paths -/

/-- Symbols at the symbol-bearing leaves, in DFS order. -/
def symsOf : HuffNode → List Nat
  | .leaf _ (some s) => [s]
  | .leaf _ none => []
  | .node _ l r => symsOf l ++ symsOf r

/-- Number of leaves (placeholder included). -/
def nLeaves : HuffNode → Nat
  | .leaf _ _ => 1
  | .node _ l r => nLeaves l + nLeaves r

/-- Symbol/root-path pairs of the symbol-bearing leaves, in DFS order
(left edge `false`, right edge `true`). -/
def codesOf : HuffNode → List (Nat × List Bool)
  | .leaf _ (some s) => [(s, [])]
  | .leaf _ none => []
  | .node _ l r =>
    (codesOf l).map (fun p => (p.1, false :: p.2)) ++
      (codesOf r).map (fun p => (p.1, true :: p.2))

theorem nLeaves_pos (t : HuffNode) : 0 < nLeaves t := by
  induction t with
  | leaf f s => simp [nLeaves]
  | node f l r ihl ihr => simp only [nLeaves]; omega

theorem codesOf_fst (t : HuffNode) : (codesOf t).map Prod.fst = symsOf t := by
  induction t with
  | leaf f s => cases s <;> simp [codesOf, symsOf]
  | node f l r ihl ihr =>
    simp only [codesOf, symsOf, List.map_append, List.map_map, ← ihl, ← ihr]
    rfl

theorem codesOf_length_le (t : HuffNode) :
    ∀ p ∈ codesOf t, p.2.length + 1 ≤ nLeaves t := by
  induction t with
  | leaf f s =>
    intro p hp
    cases s with
    | none => simp [codesOf] at hp
    | some v =>
      simp only [codesOf, List.mem_singleton] at hp
      subst hp
      simp [nLeaves]
  | node f l r ihl ihr =>
    intro p hp
    have hlp := nLeaves_pos l
    have hrp := nLeaves_pos r
    simp only [codesOf, List.mem_append, List.mem_map] at hp
    rcases hp with ⟨q, hq, rfl⟩ | ⟨q, hq, rfl⟩
    · have := ihl q hq
      simp only [List.length_cons, nLeaves]
      omega
    · have := ihr q hq
      simp only [List.length_cons, nLeaves]
      omega

theorem codesOf_ne_nil_of_node (f : Nat) (l r : HuffNode) :
    ∀ p ∈ codesOf (.node f l r), p.2 ≠ [] := by
  intro p hp
  simp only [codesOf, List.mem_append, List.mem_map] at hp
  rcases hp with ⟨q, _, rfl⟩ | ⟨q, _, rfl⟩ <;> simp

/-- Mutual non-prefix property of the root paths of distinct leaves. -/
theorem codesOf_pairwise (t : HuffNode) :
    (codesOf t).Pairwise (fun a b => ¬ a.2 <+: b.2 ∧ ¬ b.2 <+: a.2) := by
  induction t with
  | leaf f s => cases s <;> simp [codesOf]
  | node f l r ihl ihr =>
    simp only [codesOf]
    apply List.pairwise_append.mpr
    refine ⟨?_, ?_, ?_⟩
    · apply List.pairwise_map.mpr
      apply List.Pairwise.imp _ ihl
      intro a b hab
      constructor
      · simpa using hab.1
      · simpa using hab.2
    · apply List.pairwise_map.mpr
      apply List.Pairwise.imp _ ihr
      intro a b hab
      constructor
      · simpa using hab.1
      · simpa using hab.2
    · intro a ha b hb
      simp only [List.mem_map] at ha hb
      obtain ⟨qa, _, rfl⟩ := ha
      obtain ⟨qb, _, rfl⟩ := hb
      constructor <;> simp

/-- `build_codes` with a non-empty path accumulator is `codesOf` with
the accumulator prepended. -/
theorem buildCodes_eq (t : HuffNode) :
    ∀ pre, pre ≠ [] →
      buildCodes t pre = (codesOf t).map (fun p => (p.1, pre ++ p.2)) := by
  induction t with
  | leaf f s =>
    intro pre hpre
    cases s with
    | none => simp [buildCodes, codesOf]
    | some v =>
      have : pre.isEmpty = false := by
        cases pre with
        | nil => exact absurd rfl hpre
        | cons a b => rfl
      simp [buildCodes, codesOf, this]
  | node f l r ihl ihr =>
    intro pre hpre
    simp only [buildCodes, codesOf, List.map_append, List.map_map]
    rw [ihl (pre ++ [false]) (by simp), ihr (pre ++ [true]) (by simp)]
    congr 1 <;>
      simp [List.map_map, Function.comp, List.append_assoc]

/-- At the root (a merged node), `build_codes` is exactly `codesOf`. -/
theorem buildCodes_root (f : Nat) (l r : HuffNode) :
    buildCodes (.node f l r) [] = codesOf (.node f l r) := by
  simp only [buildCodes, codesOf, List.nil_append]
  rw [buildCodes_eq l [false] (by simp), buildCodes_eq r [true] (by simp)]
  rfl

/-! ### Invariants of the heap merge loop -/

theorem buildLoopF_spec :
    ∀ (fuel : Nat) (h : List HuffNode), h ≠ [] → h.length ≤ fuel + 1 →
      ∃ t, buildLoopF fuel h = some t ∧
        (symsOf t).Perm (h.map symsOf).flatten ∧
        nLeaves t = (h.map nLeaves).sum ∧
        (∀ x, h = [x] → t = x) ∧
        (2 ≤ h.length → ∃ f a b, t = .node f a b) := by
  intro fuel
  induction fuel with
  | zero =>
    intro h hne hlen
    match h with
    | [x] =>
      refine ⟨x, rfl, by simp, by simp, ?_, by simp⟩
      intro y hy
      cases hy
      rfl
    | [] => exact absurd rfl hne
    | _ :: _ :: _ => simp at hlen
  | succ fuel ih =>
    intro h hne hlen
    match h with
    | [] => exact absurd rfl hne
    | [x] =>
      refine ⟨x, rfl, by simp, by simp, ?_, by simp⟩
      intro y hy
      cases hy
      rfl
    | t1 :: t2 :: ts =>
      cases hp : popMin (t1 :: t2 :: ts) with
      | none =>
        have := popMin_isSome (t1 :: t2 :: ts) (by simp)
        rw [hp] at this
        simp at this
      | some p =>
        obtain ⟨l, r1⟩ := p
        have hlen1 : r1.length + 1 = ts.length + 2 := by
          have := popMin_length _ _ _ hp
          simpa using this
        cases hp2 : popMin r1 with
        | none =>
          have := popMin_isSome r1 (by
            intro hcon
            rw [hcon] at hlen1
            simp at hlen1)
          rw [hp2] at this
          simp at this
        | some q =>
          obtain ⟨r, r2⟩ := q
          have hlen2 : r2.length + 1 = r1.length := popMin_length _ _ _ hp2
          set merged := HuffNode.node (l.freq + r.freq) l r with hmerged
          have harg_ne : r2 ++ [merged] ≠ [] := by simp
          have harg_len : (r2 ++ [merged]).length ≤ fuel + 1 := by
            simp only [List.length_append, List.length_cons, List.length_nil]
            simp only [List.length_cons] at hlen
            omega
          obtain ⟨t, ht, hperm, hsum, hone, hnode2⟩ := ih (r2 ++ [merged]) harg_ne harg_len
          have hstep : buildLoopF (fuel + 1) (t1 :: t2 :: ts) = some t := by
            rw [buildLoopF, hp]
            simp only
            rw [hp2]
            simp only
            exact ht
          have hp1 : (t1 :: t2 :: ts).Perm (l :: r1) := popMin_perm _ _ _ hp
          have hp2p : r1.Perm (r :: r2) := popMin_perm _ _ _ hp2
          have hall : (t1 :: t2 :: ts).Perm (l :: r :: r2) := hp1.trans (hp2p.cons l)
          have hnode : ∃ f a b, t = .node f a b := by
            cases hr2 : r2 with
            | nil =>
              rw [hr2] at hone
              exact ⟨_, _, _, hone merged (by simp)⟩
            | cons z zs =>
              apply hnode2
              rw [hr2]
              simp
          refine ⟨t, hstep, ?_, ?_, (by intro y hy; cases hy), fun _ => hnode⟩
          · refine hperm.trans ?_
            have h1 : ((r2 ++ [merged]).map symsOf).flatten =
                (r2.map symsOf).flatten ++ (symsOf l ++ symsOf r) := by
              simp [hmerged, symsOf]
            rw [h1]
            have h2 : ((t1 :: t2 :: ts).map symsOf).flatten.Perm
                ((l :: r :: r2).map symsOf).flatten := (hall.map symsOf).flatten
            refine List.Perm.trans ?_ h2.symm
            simp only [List.map_cons, List.flatten_cons]
            have hcomm : ((r2.map symsOf).flatten ++ (symsOf l ++ symsOf r)).Perm
                ((symsOf l ++ symsOf r) ++ (r2.map symsOf).flatten) :=
              List.perm_append_comm
            simpa [List.append_assoc] using hcomm
          · rw [hsum]
            have h2 : ((t1 :: t2 :: ts).map nLeaves).sum =
                ((l :: r :: r2).map nLeaves).sum := (hall.map nLeaves).sum_eq
            rw [h2]
            simp only [List.map_append, List.map_cons, List.sum_append, List.sum_cons,
              List.map_nil, List.sum_nil, hmerged, nLeaves]
            omega

/-! ### The histogram leaf list -/

/-- Byte values with a nonzero histogram count, in increasing order. -/
def present (d : List Nat) : List Nat :=
  (List.range 256).filter (fun i => 0 < d.count i)

theorem initLeaves_eq (d : List Nat) :
    initLeaves d = (present d).map (fun i => .leaf (d.count i) (some i)) := rfl

theorem present_nodup (d : List Nat) : (present d).Nodup :=
  (List.nodup_range 256).filter _

theorem mem_present (d : List Nat) (b : Nat) :
    b ∈ present d ↔ b < 256 ∧ 0 < d.count b := by
  simp [present, List.mem_filter, List.mem_range, and_comm]

theorem present_length_le (d : List Nat) : (present d).length ≤ 256 := by
  have := List.length_filter_le (fun i => decide (0 < d.count i)) (List.range 256)
  simpa [present] using this

theorem initLeaves_syms (d : List Nat) :
    ((initLeaves d).map symsOf).flatten = present d := by
  rw [initLeaves_eq, List.map_map]
  induction present d with
  | nil => simp
  | cons a t ih => simp [symsOf, Function.comp, ih]

theorem initLeaves_nLeaves (d : List Nat) :
    ((initLeaves d).map nLeaves).sum = (present d).length := by
  rw [initLeaves_eq, List.map_map]
  induction present d with
  | nil => simp
  | cons a t ih =>
    simp [nLeaves, Function.comp, ih]
    omega

/-- `build_tree` on a non-empty byte buffer yields a node-rooted tree
whose leaf symbols are exactly the present byte values and whose codes
are at most 255 bits (a tree of at most 256 leaves never exceeds that,
so the `code.len() as u8` cast in the encoder never truncates). -/
theorem build_tree_spec (d : List Nat) (hne : d ≠ []) (hb : ∀ b ∈ d, b < 256) :
    ∃ f l r, build_tree d = some (.node f l r) ∧
      (symsOf (.node f l r)).Perm (present d) ∧
      (∀ p ∈ codesOf (.node f l r), p.2.length ≤ 255) := by
  have hpne : present d ≠ [] := by
    obtain ⟨b, hbmem⟩ : ∃ b, b ∈ d := by
      cases d with
      | nil => exact absurd rfl hne
      | cons x xs => exact ⟨x, by simp⟩
    intro hcon
    have : b ∈ present d := (mem_present d b).mpr
      ⟨hb b hbmem, List.count_pos_iff_mem.mpr hbmem⟩
    rw [hcon] at this
    simp at this
  cases hI : initLeaves d with
  | nil =>
    rw [initLeaves_eq] at hI
    exact absurd (List.map_eq_nil.mp hI) hpne
  | cons l0 tl =>
    cases tl with
    | nil =>
      -- single distinct byte: the synthesized two-leaf tree
      rw [initLeaves_eq] at hI
      obtain ⟨i, hpres, hl0⟩ : ∃ i, present d = [i] ∧
          l0 = HuffNode.leaf (d.count i) (some i) := by
        cases hp : present d with
        | nil => rw [hp] at hI; simp at hI
        | cons i it =>
          cases it with
          | nil =>
            rw [hp] at hI
            simp only [List.map_cons, List.map_nil, List.cons.injEq] at hI
            exact ⟨i, rfl, hI.1.symm⟩
          | cons j jt => rw [hp] at hI; simp at hI
      refine ⟨l0.freq, l0, .leaf 0 none, ?_, ?_, ?_⟩
      · rw [build_tree, initLeaves_eq, hpres]
        simp [hl0]
      · rw [hl0, hpres]
        simp [symsOf]
      · intro p hp
        rw [hl0] at hp
        simp [codesOf] at hp
        subst hp
        simp
    | cons l1 tl2 =>
      have hlsne : initLeaves d ≠ [] := by rw [hI]; simp
      obtain ⟨t, ht, hperm, hsum, -, hnode⟩ :=
        buildLoopF_spec (initLeaves d).length (initLeaves d) hlsne (by omega)
      obtain ⟨f, a, b, rfl⟩ := hnode (by rw [hI]; simp)
      refine ⟨f, a, b, ?_, ?_, ?_⟩
      · rw [build_tree, hI]
        rw [hI] at ht
        exact ht
      · exact hperm.trans (by rw [initLeaves_syms d])
      · intro p hp
        have hlen := codesOf_length_le _ p hp
        have : nLeaves (.node f a b) = (present d).length := by
          rw [hsum, initLeaves_nLeaves]
        have hple := present_length_le d
        omega

/-! ### Association-list lookups (decoder `HashMap`) -/

theorem lookup_of_mem {α β : Type} [BEq α] [LawfulBEq α]
    (l : List (α × β)) (k : α) (v : β) (hmem : (k, v) ∈ l)
    (hnd : (l.map Prod.fst).Nodup) : List.lookup k l = some v := by
  induction l with
  | nil => simp at hmem
  | cons e t ih =>
    simp only [List.map_cons, List.nodup_cons] at hnd
    rcases List.mem_cons.mp hmem with h1 | h1
    · rw [← h1, List.lookup]
      simp
    · have hke : k ≠ e.1 := by
        intro hc
        apply hnd.1
        rw [← hc]
        exact List.mem_map.mpr ⟨(k, v), h1, rfl⟩
      obtain ⟨e1, e2⟩ := e
      rw [List.lookup]
      have : (k == e1) = false := by
        simp only [beq_eq_false_iff_ne, ne_eq]
        simpa using hke
      rw [this]
      exact ih h1 hnd.2

theorem lookup_eq_none {α β : Type} [BEq α] [LawfulBEq α]
    (l : List (α × β)) (k : α) (h : ∀ e ∈ l, e.1 ≠ k) :
    List.lookup k l = none := by
  induction l with
  | nil => rfl
  | cons e t ih =>
    obtain ⟨e1, e2⟩ := e
    rw [List.lookup]
    have : (k == e1) = false := by
      simp only [beq_eq_false_iff_ne, ne_eq]
      intro hc
      exact h (e1, e2) (by simp) (by simp [hc])
    rw [this]
    exact ih (fun e he => h e (by simp [he]))

/-- The decoder table as built from the serialized codes: key = code,
value = symbol. -/
def tblOf (codes : List (Nat × List Bool)) : List (List Bool × Nat) :=
  codes.map (fun sc => (sc.2, sc.1))

theorem insertA_not_mem (k : List Bool) (v : Nat)
    (acc : List (List Bool × Nat)) (h : ∀ e ∈ acc, e.1 ≠ k) :
    insertA k v acc = acc ++ [(k, v)] := by
  induction acc with
  | nil => rfl
  | cons e t ih =>
    rw [insertA, if_neg (h e (by simp))]
    rw [ih (fun e he => h e (by simp [he]))]
    rfl

theorem foldl_insertA (codes : List (Nat × List Bool)) :
    ∀ (acc : List (List Bool × Nat)),
      (∀ sc ∈ codes, ∀ e ∈ acc, e.1 ≠ sc.2) →
      (codes.map Prod.snd).Nodup →
      codes.foldl (fun a sc => insertA sc.2 sc.1 a) acc = acc ++ tblOf codes := by
  induction codes with
  | nil => intro acc _ _; simp [tblOf]
  | cons sc codes ih =>
    intro acc hdisj hnd
    simp only [List.map_cons, List.nodup_cons] at hnd
    rw [List.foldl_cons]
    rw [insertA_not_mem sc.2 sc.1 acc (hdisj sc (by simp))]
    rw [ih (acc ++ [(sc.2, sc.1)]) ?_ hnd.2]
    · simp [tblOf]
    · intro sc2 hsc2 e he
      rcases List.mem_append.mp he with h1 | h1
      · exact hdisj sc2 (by simp [hsc2]) e h1
      · simp only [List.mem_singleton] at h1
        subst h1
        simp only
        intro hc
        exact hnd.1 (by
          rw [hc]
          exact List.mem_map.mpr ⟨sc2, hsc2, rfl⟩)

/-- Parsing the serialized code table recovers the code map: the parse
consumes exactly the table bytes and performs the same inserts the
encoder's iteration produced. -/
theorem readTable_serialize (codes : List (Nat × List Bool)) :
    ∀ (tbl : List (List Bool × Nat)) (suffix : List Nat),
      (∀ sc ∈ codes, sc.2.length ≤ 255) →
      readTable codes.length
          ((codes.flatMap fun sc => sc.1 :: (sc.2.length % 256) :: packBits sc.2) ++ suffix)
          tbl =
        .ok (codes.foldl (fun acc sc => insertA sc.2 sc.1 acc) tbl, suffix) := by
  induction codes with
  | nil => intro tbl suffix _; simp [readTable]
  | cons sc codes ih =>
    intro tbl suffix hle
    have hsc : sc.2.length ≤ 255 := hle sc (by simp)
    simp only [List.flatMap_cons, List.length_cons, List.cons_append, List.append_assoc]
    rw [readTable]
    rw [Nat.mod_eq_of_lt (by omega)]
    rw [if_neg (by
      rw [List.length_append, packBits_length]
      omega)]
    have htake : ((packBits sc.2 ++
        ((codes.flatMap fun sc => sc.1 :: (sc.2.length % 256) :: packBits sc.2) ++ suffix)).take
          ((sc.2.length + 7) / 8)) = packBits sc.2 := by
      rw [← packBits_length sc.2]
      exact List.take_left _ _
    have hdrop : ((packBits sc.2 ++
        ((codes.flatMap fun sc => sc.1 :: (sc.2.length % 256) :: packBits sc.2) ++ suffix)).drop
          ((sc.2.length + 7) / 8)) =
        (codes.flatMap fun sc => sc.1 :: (sc.2.length % 256) :: packBits sc.2) ++ suffix := by
      rw [← packBits_length sc.2]
      exact List.drop_left _ _
    rw [htake, hdrop]
    have hcode : ((packBits sc.2).flatMap byteBits).take sc.2.length = sc.2 := by
      rw [packBits_flatMap]
      exact List.take_left sc.2 _
    rw [hcode]
    rw [ih _ suffix (fun x hx => hle x (by simp [hx]))]
    rfl

/-! ### Correctness of the bit-decode loop -/

/-- Walking the decoder across one full code: no proper prefix of the
code is in the table, so the accumulator grows silently until the exact
match emits the symbol (and the loop breaks if the target is reached). -/
theorem decodeAux_code (tbl : List (List Bool × Nat)) (orig : Nat) (s : Nat) :
    ∀ (c₂ c₁ rest : List Bool) (out : List Nat),
      c₂ ≠ [] →
      List.lookup (c₁ ++ c₂) tbl = some s →
      (∀ k, c₁.length < k → k < (c₁ ++ c₂).length →
        List.lookup ((c₁ ++ c₂).take k) tbl = none) →
      decodeAux tbl orig (c₂ ++ rest) c₁ out =
        if orig ≤ out.length + 1 then out ++ [s]
        else decodeAux tbl orig rest [] (out ++ [s]) := by
  intro c₂
  induction c₂ with
  | nil => intro c₁ rest out hne; exact absurd rfl hne
  | cons bit c₂ ih =>
    intro c₁ rest out _ hlk hpf
    cases c₂ with
    | nil =>
      rw [List.cons_append, decodeAux]
      rw [show c₁ ++ [bit] = c₁ ++ [bit] ++ ([] : List Bool) by simp] at hlk
      simp only [List.append_nil] at hlk
      rw [hlk]
      simp only [List.nil_append, List.length_append, List.length_singleton]
    | cons b2 c₂t =>
      rw [List.cons_append, decodeAux]
      have hnone : List.lookup (c₁ ++ [bit]) tbl = none := by
        have hk := hpf (c₁.length + 1) (by omega)
          (by simp only [List.length_append, List.length_cons]; omega)
        rw [List.take_append 1] at hk
        simpa using hk
      rw [hnone]
      have hassoc : c₁ ++ bit :: b2 :: c₂t = (c₁ ++ [bit]) ++ (b2 :: c₂t) := by simp
      refine ih (c₁ ++ [bit]) rest out (by simp) ?_ ?_
      · rw [← hassoc]
        exact hlk
      · intro k hk1 hk2
        rw [← hassoc]
        apply hpf
        · simp only [List.length_append, List.length_singleton] at hk1
          omega
        · rw [hassoc]
          exact hk2

/-- Decoding the concatenated codes of a symbol list emits exactly that
list, stopping on the final symbol so the padding is never examined. -/
theorem decodeAux_all (tbl : List (List Bool × Nat)) (orig : Nat)
    (code : Nat → List Bool) :
    ∀ (ds : List Nat) (out : List Nat) (pad : List Bool),
      ds ≠ [] →
      (∀ b ∈ ds, List.lookup (code b) tbl = some b ∧ code b ≠ [] ∧
        ∀ k, 0 < k → k < (code b).length → List.lookup ((code b).take k) tbl = none) →
      out.length + ds.length = orig →
      decodeAux tbl orig (ds.flatMap code ++ pad) [] out = out ++ ds := by
  intro ds
  induction ds with
  | nil => intro out pad hne; exact absurd rfl hne
  | cons b ds ih =>
    intro out pad _ hc horig
    have hb := hc b (by simp)
    rw [List.flatMap_cons, List.append_assoc]
    rw [decodeAux_code tbl orig b (code b) [] (ds.flatMap code ++ pad) out hb.2.1
      (by simpa using hb.1)
      (by
        intro k hk1 hk2
        simp only [List.nil_append] at hk2 ⊢
        exact hb.2.2 k (by simpa using hk1) hk2)]
    cases ds with
    | nil =>
      rw [if_pos (by simp at horig; omega)]
    | cons b2 dst =>
      rw [if_neg (by simp at horig; omega)]
      rw [ih (out ++ [b]) pad (by simp) (fun x hx => hc x (by simp [hx]))
        (by simp at horig; simp; omega)]
      simp

/-- The Huffman codec round-trips: compressing any non-empty byte
buffer succeeds and decompressing the result with the original length
returns the buffer. -/
theorem huffman_roundtrip (d : List Nat) (hne : d ≠ []) (hb : ∀ b ∈ d, b < 256) :
    ∃ out, compress d = some out ∧ decompress out d.length = .ok d := by
  obtain ⟨f, l, r, hbt, hperm, hlen255⟩ := build_tree_spec d hne hb
  have hcomp : compress d =
      some (((buildCodes (HuffNode.node f l r) []).length % 256) ::
        ((buildCodes (HuffNode.node f l r) []).length / 256 % 256) ::
        (((buildCodes (HuffNode.node f l r) []).flatMap fun sc =>
            sc.1 :: (sc.2.length % 256) :: packBits sc.2) ++
          (u32le d.length ++
            packBits (d.flatMap fun b =>
              (List.lookup b (buildCodes (HuffNode.node f l r) [])).getD [])))) := by
    rw [compress, hbt]
  have hcodesOf : buildCodes (.node f l r) [] = codesOf (.node f l r) :=
    buildCodes_root f l r
  generalize hcodes : buildCodes (HuffNode.node f l r) [] = codes at hcodesOf hcomp
  -- facts about the code list
  have hfst : codes.map Prod.fst = symsOf (.node f l r) := by
    rw [hcodesOf]
    exact codesOf_fst _
  have hfst_nodup : (codes.map Prod.fst).Nodup := by
    rw [hfst]
    exact (hperm.nodup_iff).mpr (present_nodup d)
  have hpairwise : codes.Pairwise (fun a b => ¬ a.2 <+: b.2 ∧ ¬ b.2 <+: a.2) := by
    rw [hcodesOf]
    exact codesOf_pairwise _
  have hne_nil : ∀ p ∈ codes, p.2 ≠ [] := by
    rw [hcodesOf]
    exact codesOf_ne_nil_of_node f l r
  have hle255 : ∀ p ∈ codes, p.2.length ≤ 255 := by
    rw [hcodesOf]
    exact hlen255
  have hsnd_nodup : (codes.map Prod.snd).Nodup := by
    have hpw : codes.Pairwise (fun a b => a.2 ≠ b.2) :=
      hpairwise.imp (fun h => fun heq => h.1 (heq ▸ List.prefix_refl _))
    exact List.pairwise_map.mpr hpw
  have hcount : codes.length ≤ 256 := by
    have h1 : codes.length = (symsOf (HuffNode.node f l r)).length := by
      rw [← hfst, List.length_map]
    have h2 := hperm.length_eq
    have h3 := present_length_le d
    omega
  -- the per-byte code function used by the encoder
  have hcode_mem : ∀ b ∈ d, (b, (List.lookup b codes).getD []) ∈ codes := by
    intro b hbd
    have hbp : b ∈ present d := (mem_present d b).mpr
      ⟨hb b hbd, List.count_pos_iff_mem.mpr hbd⟩
    have hmem : b ∈ codes.map Prod.fst := by
      rw [hfst]
      exact (hperm.mem_iff).mpr hbp
    obtain ⟨e, he, hfst_e⟩ := List.mem_map.mp hmem
    have hpair : e = (b, e.2) := by
      obtain ⟨e1, e2⟩ := e
      simp only at hfst_e
      simp [hfst_e]
    rw [hpair] at he
    have hlk : List.lookup b codes = some e.2 := lookup_of_mem _ _ _ he hfst_nodup
    rw [hlk]
    exact he
  have htbl_keys : (tblOf codes).map Prod.fst = codes.map Prod.snd := by
    simp [tblOf, List.map_map]
  have htbl_lookup : ∀ b ∈ d,
      List.lookup ((List.lookup b codes).getD []) (tblOf codes) = some b := by
    intro b hbd
    have : ((List.lookup b codes).getD [], b) ∈ tblOf codes :=
      List.mem_map.mpr ⟨(b, (List.lookup b codes).getD []), hcode_mem b hbd, rfl⟩
    apply lookup_of_mem _ _ _ this
    rw [htbl_keys]
    exact hsnd_nodup
  have htbl_prefix_none : ∀ b ∈ d, ∀ k, 0 < k →
      k < ((List.lookup b codes).getD []).length →
      List.lookup (((List.lookup b codes).getD []).take k) (tblOf codes) = none := by
    intro b hbd k hk1 hk2
    apply lookup_eq_none
    intro e he hek
    obtain ⟨sc, hsc, rfl⟩ := List.mem_map.mp he
    simp only at hek
    have hbe := hcode_mem b hbd
    by_cases heq : sc = (b, (List.lookup b codes).getD [])
    · rw [heq] at hek
      simp only at hek
      have := congrArg List.length hek
      rw [List.length_take] at this
      omega
    · have hR := hpairwise.forall (fun a b h => ⟨h.2, h.1⟩) hsc hbe heq
      apply hR.1
      rw [hek]
      exact List.take_prefix k _
  refine ⟨_, hcomp, ?_⟩
  -- walk decompress
  rw [decompress]
  have h16 : codes.length % 256 + 256 * (codes.length / 256 % 256) = codes.length := by
    omega
  rw [h16]
  rw [readTable_serialize codes []
    (u32le d.length ++ packBits (d.flatMap fun b => (List.lookup b codes).getD []))
    hle255]
  rw [foldl_insertA codes [] (by simp) hsnd_nodup]
  simp only [List.nil_append]
  rw [if_neg (by simp [u32le])]
  have hdrop : (u32le d.length ++
      packBits (d.flatMap fun b => (List.lookup b codes).getD [])).drop 4 =
      packBits (d.flatMap fun b => (List.lookup b codes).getD []) := by
    rw [show (4 : Nat) = (u32le d.length).length from rfl]
    exact List.drop_left _ _
  rw [hdrop, packBits_flatMap]
  rw [decodeAux_all (tblOf codes) d.length (fun b => (List.lookup b codes).getD []) d []
    (List.replicate ((8 - (d.flatMap fun b => (List.lookup b codes).getD []).length % 8) % 8)
      false)
    hne
    (fun b hbd => ⟨htbl_lookup b hbd, hne_nil _ (hcode_mem b hbd), htbl_prefix_none b hbd⟩)
    (by simp)]
  simp

/-! ### Output-length bound of the decoder and independence from the
stored length field -/

theorem decodeAux_length_le (tbl : List (List Bool × Nat)) (orig : Nat) :
    ∀ (bits cur : List Bool) (out : List Nat), out.length < orig →
      (decodeAux tbl orig bits cur out).length ≤ orig := by
  intro bits
  induction bits with
  | nil =>
    intro cur out h
    rw [decodeAux]
    omega
  | cons bit rest ih =>
    intro cur out h
    rw [decodeAux]
    cases hlk : List.lookup (cur ++ [bit]) tbl with
    | some s =>
      simp only
      split
      · rename_i hcond
        simp only [List.length_append, List.length_singleton] at hcond ⊢
        omega
      · rename_i hcond
        apply ih
        simp only [List.length_append, List.length_singleton] at hcond ⊢
        omega
    | none => exact ih _ _ h

/-- Whenever `huffman::decompress` succeeds with `original_size ≥ 1`,
the output has at most `original_size` bytes (the decode loop breaks on
reaching the target; exhausting the payload first just ends early). -/
theorem decompress_length_le (data : List Nat) (n : Nat) (out : List Nat)
    (hn : 1 ≤ n) (hok : decompress data n = .ok out) : out.length ≤ n := by
  match data with
  | [] => simp [decompress] at hok
  | [b0] => simp [decompress] at hok
  | b0 :: b1 :: rest =>
    rw [decompress] at hok
    cases hrt : readTable (b0 + 256 * b1) rest [] with
    | ok p =>
      obtain ⟨tbl, rest2⟩ := p
      rw [hrt] at hok
      simp only at hok
      split at hok
      · simp at hok
      · simp only [Res.ok.injEq] at hok
        rw [← hok]
        exact decodeAux_length_le tbl n _ [] [] (by simp; omega)
    | error e => rw [hrt] at hok; simp at hok
    | panic => rw [hrt] at hok; simp at hok

/-- The table parse is incremental: extending the input stream leaves a
successful parse unchanged and lands the extension in the remainder. -/
theorem readTable_extend :
    ∀ (cnt : Nat) (xs ys : List Nat) (acc tbl : List (List Bool × Nat)) (rest : List Nat),
      readTable cnt xs acc = .ok (tbl, rest) →
      readTable cnt (xs ++ ys) acc = .ok (tbl, rest ++ ys) := by
  intro cnt
  induction cnt with
  | zero =>
    intro xs ys acc tbl rest h
    rw [readTable] at h ⊢
    simp only [Res.ok.injEq, Prod.mk.injEq] at h
    rw [h.1, h.2]
  | succ c ih =>
    intro xs ys acc tbl rest h
    match xs with
    | [] => simp [readTable] at h
    | [x] => simp [readTable] at h
    | x1 :: x2 :: xr =>
      rw [readTable] at h
      split at h
      · simp at h
      · rename_i hlen
        rw [List.cons_append, List.cons_append, readTable]
        rw [if_neg (by
          rw [List.length_append]
          push_neg at hlen ⊢
          omega)]
        push_neg at hlen
        rw [List.take_append_of_le_length hlen, List.drop_append_of_le_length hlen]
        exact ih _ ys _ tbl rest h

/-- `huffman::decompress` never reads the 4-byte stored length: two
inputs with the same (fully consumed) table bytes and payload but
arbitrary differing 4-byte length fields decode identically. -/
theorem decompress_ignores_length (b0 b1 : Nat) (tb l4 l4' payload : List Nat)
    (tbl : List (List Bool × Nat)) (n : Nat)
    (htb : readTable (b0 + 256 * b1) tb [] = .ok (tbl, []))
    (hl4 : l4.length = 4) (hl4' : l4'.length = 4) :
    decompress (b0 :: b1 :: (tb ++ (l4 ++ payload))) n =
      decompress (b0 :: b1 :: (tb ++ (l4' ++ payload))) n := by
  have h1 := readTable_extend _ tb (l4 ++ payload) [] tbl [] htb
  have h2 := readTable_extend _ tb (l4' ++ payload) [] tbl [] htb
  simp only [List.nil_append] at h1 h2
  rw [decompress, decompress, h1, h2]
  simp only
  rw [if_neg (by rw [List.length_append]; omega),
    if_neg (by rw [List.length_append]; omega)]
  have hd1 : (l4 ++ payload).drop 4 = payload := by
    rw [← hl4]
    exact List.drop_left _ _
  have hd2 : (l4' ++ payload).drop 4 = payload := by
    rw [← hl4']
    exact List.drop_left _ _
  rw [hd1, hd2]

end huffman

/-! ## The compressor engine (`lib.rs`, `config.rs`)

`compute_entropy` returns an `f64` (a sum of `p·log2 p` terms,
irrational in general); the engine only compares it against the
thresholds 2.0 / 3.0, so the entropy value is threaded through as an
explicit parameter `e : ℚ`. Ratios (`compressed/original` with a common
divisor) and the 0.1 repetition threshold are modelled exactly over
`ℚ`. The external DEFLATE block codec is the parameter pair
`encB decB`. -/

/-- `config.rs` `CompressionConfig`. -/
structure CompressionConfig where
  ryzanstein_url : String
  lz4_block_size : Nat
  dedup_threshold : ℚ
  max_input_size : Nat
  enable_semantic : Bool
deriving DecidableEq, Repr

/-- The `Default` impl of `CompressionConfig`. -/
def CompressionConfig.default : CompressionConfig :=
  { ryzanstein_url := "http://localhost:8000"
    lz4_block_size := 65536
    dedup_threshold := 95 / 100
    max_input_size := 100 * 1024 * 1024
    enable_semantic := true }

/-- `lib.rs` `CompressionMethod` (spec names: SymbolCoding = `huffman`,
BlockGeneral = `lz4Semantic`, RunLength = `entropyCoding`,
ContentDedup = `semanticDedupe`). -/
inductive CompressionMethod where
  | huffman : CompressionMethod
  | lz4Semantic : CompressionMethod
  | entropyCoding : CompressionMethod
  | semanticDedupe : CompressionMethod
  | auto : CompressionMethod
deriving DecidableEq, Repr

/-- `lib.rs` `CompressionMetadata`. -/
structure CompressionMetadata where
  entropy_bits : ℚ
  semantic_dedup_count : Nat
  block_count : Nat
deriving DecidableEq, Repr

/-- `lib.rs` `CompressedOutput` (the envelope). -/
structure CompressedOutput where
  method : CompressionMethod
  original_size : Nat
  compressed_size : Nat
  data : List Nat
  ratio : ℚ
  metadata : CompressionMetadata
deriving DecidableEq, Repr

namespace Compressor

/-- `Compressor::select_method` (the static policy), on the computed
entropy `e` and the input. -/
def select_method (e : ℚ) (data : List Nat) : CompressionMethod :=
  if e < 3 then .huffman
  else if data.length > 4096 then .lz4Semantic
  else .entropyCoding

/-- The FNV-1a-style 64-bit block hash of `detect_block_repetition`
(seed `0xcbf29ce484222325`, XOR the byte then wrapping-multiply by
`0x100000001b3`). -/
def fnvHash (c : List Nat) : Nat :=
  c.foldl (fun h b => ((h ^^^ b) * 0x100000001b3) % 2 ^ 64) 0xcbf29ce484222325

/-- Hashes of the full 64-byte chunks of the input. -/
def blockHashes (data : List Nat) : List Nat :=
  ((chunksOfB 64 data).filter (fun c => c.length = 64)).map fnvHash

/-- Number of chunk hashes already seen when reached
(Rust `!seen.insert(hash)` counting). -/
def dupCount (hashes : List Nat) : Nat :=
  (hashes.foldl (fun p h => if h ∈ p.2 then (p.1 + 1, p.2) else (p.1, h :: p.2))
    (0, ([] : List Nat))).1

/-- `Compressor::detect_block_repetition`: false below 128 bytes, else
whether duplicate full 64-byte blocks exceed 10% of the full blocks
(the `f64` comparison against the literal `0.1` modelled exactly). -/
def detect_block_repetition (data : List Nat) : Bool :=
  if data.length < 128 then false
  else
    let dups := dupCount (blockHashes data)
    let total := data.length / 64
    decide (0 < total ∧ (1 : ℚ) / 10 < (dups : ℚ) / (total : ℚ))

/-- The block-repetition signal as a ratio (duplicate full blocks over
total full blocks, 0 when there is no full block), as the spec
describes `repetition_ratio`. -/
def repetitionRatio (data : List Nat) : ℚ :=
  let dups := dupCount (blockHashes data)
  let total := data.length / 64
  if total = 0 then 0 else (dups : ℚ) / (total : ℚ)

/-- The ordered candidate list built by `Compressor::compress_adaptive`
from the entropy and repetition analysis. -/
def candidates (e : ℚ) (data : List Nat) : List CompressionMethod :=
  if e < 2 then [.huffman]
  else if detect_block_repetition data = true ∧ data.length > 256 then
    [.semanticDedupe, .lz4Semantic]
  else if data.length > 4096 then [.lz4Semantic, .huffman]
  else [.entropyCoding, .huffman]

/-- The codec dispatch inside `Compressor::compress` (the `match method`
block). The `Auto` arm is the source's `unreachable!()` (dead: the
resolved method is never `Auto`). -/
def dispatch (cfg : CompressionConfig) (encB : List Nat → Option (List Nat))
    (data : List Nat) : CompressionMethod → Except CompressError (List Nat)
  | .huffman =>
    match huffman.compress data with
    | some v => .ok v
    | none => .error (.huffmanError "empty tree")
  | .lz4Semantic => lz4_wrapper.compress encB cfg.lz4_block_size data
  | .entropyCoding => .ok (entropy.compress data)
  | .semanticDedupe => .ok (semantic.compress data cfg.dedup_threshold)
  | .auto => .error .invalidMethod

/-- `Compressor::compress`: reject empty input, resolve `Auto` through
the static policy, dispatch exactly one codec, wrap the result into the
envelope. -/
def compress (cfg : CompressionConfig) (encB : List Nat → Option (List Nat))
    (e : ℚ) (data : List Nat) (method : CompressionMethod) :
    Except CompressError CompressedOutput :=
  if data = [] then .error .emptyInput
  else
    match dispatch cfg encB data (if method = .auto then select_method e data else method) with
    | .error err => .error err
    | .ok c =>
      .ok { method := if method = .auto then select_method e data else method
            original_size := data.length
            compressed_size := c.length
            data := c
            ratio := if data = [] then 1 else (c.length : ℚ) / (data.length : ℚ)
            metadata :=
              { entropy_bits := e
                semantic_dedup_count := 0
                block_count := max (data.length / cfg.lz4_block_size) 1 } }

/-- `Compressor::decompress`: dispatch on the stored method; a stored
`Auto` is the invalid-method error. -/
def decompress (decB : List Nat → Option (List Nat))
    (out : CompressedOutput) : Res (List Nat) :=
  match out.method with
  | .huffman => huffman.decompress out.data out.original_size
  | .lz4Semantic => lz4_wrapper.decompress decB out.data out.original_size
  | .entropyCoding => entropy.decompress out.data out.original_size
  | .semanticDedupe => semantic.decompress out.data out.original_size
  | .auto => .error .invalidMethod

/-- The accumulator step of the adaptive best-ratio loop
(`if best.as_ref().map_or(true, |b| result.ratio < b.ratio)`). -/
def pick (best : Option CompressedOutput) (result : CompressedOutput) :
    Option CompressedOutput :=
  match best with
  | none => some result
  | some b => if result.ratio < b.ratio then some result else some b

/-- `Compressor::compress_adaptive`: run the candidates in order,
skipping failures, keep the strictly-best ratio, and surface the
empty-input error when nothing succeeded. -/
def compress_adaptive (cfg : CompressionConfig)
    (encB : List Nat → Option (List Nat)) (e : ℚ) (data : List Nat) :
    Except CompressError CompressedOutput :=
  if data = [] then .error .emptyInput
  else
    let best := (candidates e data).foldl
      (fun best m =>
        match compress cfg encB e data m with
        | .ok result => pick best result
        | .error _ => best)
      none
    match best with
    | some b => .ok b
    | none => .error .emptyInput

/-! ### Lemmas about the engine -/

theorem select_method_ne_auto (e : ℚ) (data : List Nat) :
    select_method e data ≠ .auto := by
  rw [select_method]
  split
  · simp
  · split <;> simp

/-- The adaptive loop over the candidate list equals the best-pick fold
over the successful results in order. -/
theorem adaptive_fold_eq (cfg : CompressionConfig)
    (encB : List Nat → Option (List Nat)) (e : ℚ) (data : List Nat) :
    ∀ (ms : List CompressionMethod) (acc : Option CompressedOutput),
      ms.foldl
        (fun best m =>
          match compress cfg encB e data m with
          | .ok result => pick best result
          | .error _ => best) acc =
      (ms.filterMap (fun m => (compress cfg encB e data m).toOption)).foldl pick acc := by
  intro ms
  induction ms with
  | nil => intro acc; rfl
  | cons m ms ih =>
    intro acc
    rw [List.foldl_cons, List.filterMap_cons]
    cases hc : compress cfg encB e data m with
    | ok result => exact ih (pick acc result)
    | error err => exact ih acc

/-- Characterization of the strict-improvement fold: starting from `b`,
the result is `b` when nothing beats it, else the first element
strictly better than `b` and everything before it. -/
theorem foldl_pick_char :
    ∀ (l : List CompressedOutput) (b : CompressedOutput),
      ∃ c, l.foldl pick (some b) = some c ∧
        ((c = b ∧ ∀ s ∈ l, b.ratio ≤ s.ratio) ∨
          (∃ pre post, l = pre ++ c :: post ∧ c.ratio < b.ratio ∧
            (∀ s ∈ pre, c.ratio < s.ratio) ∧ (∀ s ∈ l, c.ratio ≤ s.ratio))) := by
  intro l
  induction l with
  | nil =>
    intro b
    exact ⟨b, rfl, Or.inl ⟨rfl, by simp⟩⟩
  | cons r l ih =>
    intro b
    rw [List.foldl_cons]
    by_cases hlt : r.ratio < b.ratio
    · rw [show pick (some b) r = some r by simp [pick, hlt]]
      obtain ⟨c, hc, hcase⟩ := ih r
      refine ⟨c, hc, Or.inr ?_⟩
      rcases hcase with ⟨rfl, hall⟩ | ⟨pre, post, hl, hcr, hpre, hall⟩
      · exact ⟨[], l, by simp, hlt, by simp, by
          intro s hs
          rcases List.mem_cons.mp hs with rfl | hs
          · exact le_refl _
          · exact hall s hs⟩
      · refine ⟨r :: pre, post, by simp [hl], lt_trans hcr hlt, ?_, ?_⟩
        · intro s hs
          rcases List.mem_cons.mp hs with rfl | hs
          · exact hcr
          · exact hpre s hs
        · intro s hs
          rcases List.mem_cons.mp hs with rfl | hs
          · exact le_of_lt hcr
          · exact hall s hs
    · rw [show pick (some b) r = some b by simp [pick, hlt]]
      obtain ⟨c, hc, hcase⟩ := ih b
      refine ⟨c, hc, ?_⟩
      rcases hcase with ⟨rfl, hall⟩ | ⟨pre, post, hl, hcr, hpre, hall⟩
      · exact Or.inl ⟨rfl, by
          intro s hs
          rcases List.mem_cons.mp hs with rfl | hs
          · exact not_lt.mp hlt
          · exact hall s hs⟩
      · refine Or.inr ⟨r :: pre, post, by simp [hl], hcr, ?_, ?_⟩
        · intro s hs
          rcases List.mem_cons.mp hs with rfl | hs
          · exact lt_of_lt_of_le hcr (not_lt.mp hlt)
          · exact hpre s hs
        · intro s hs
          rcases List.mem_cons.mp hs with rfl | hs
          · exact le_of_lt (lt_of_lt_of_le hcr (not_lt.mp hlt))
          · exact hall s hs

/-- The fold from `none` returns the first element attaining the
minimum ratio (everything earlier is strictly worse, everything is at
least it), and `none` exactly on the empty list. -/
theorem foldl_pick_none :
    ∀ (l : List CompressedOutput),
      (l.foldl pick none = none ↔ l = []) ∧
      (∀ c, l.foldl pick none = some c →
        ∃ pre post, l = pre ++ c :: post ∧
          (∀ s ∈ pre, c.ratio < s.ratio) ∧ (∀ s ∈ l, c.ratio ≤ s.ratio)) := by
  intro l
  cases l with
  | nil => exact ⟨by simp, by intro c hc; simp at hc⟩
  | cons r l =>
    rw [List.foldl_cons, show pick none r = some r from rfl]
    obtain ⟨c, hc, hcase⟩ := foldl_pick_char l r
    constructor
    · rw [hc]
      simp
    · intro c2 hc2
      rw [hc] at hc2
      have hcc : c = c2 := by
        simpa using hc2
      subst hcc
      rcases hcase with ⟨rfl, hall⟩ | ⟨pre, post, hl, hcr, hpre, hall⟩
      · refine ⟨[], l, by simp, by simp, ?_⟩
        intro s hs
        rcases List.mem_cons.mp hs with rfl | hs
        · exact le_refl _
        · exact hall s hs
      · refine ⟨r :: pre, post, by simp [hl], ?_, ?_⟩
        · intro s hs
          rcases List.mem_cons.mp hs with rfl | hs
          · exact hcr
          · exact hpre s hs
        · intro s hs
          rcases List.mem_cons.mp hs with rfl | hs
          · exact le_of_lt hcr
          · exact hall s hs

/-- The method stored in a successful envelope is the resolved method. -/
theorem compress_ok_method (cfg : CompressionConfig)
    (encB : List Nat → Option (List Nat)) (e : ℚ) (data : List Nat)
    (m : CompressionMethod) (out : CompressedOutput)
    (h : compress cfg encB e data m = .ok out) :
    out.method = if m = .auto then select_method e data else m := by
  rw [compress] at h
  split at h
  · simp at h
  · cases hd : dispatch cfg encB data (if m = .auto then select_method e data else m) with
    | error err =>
      rw [hd] at h
      simp at h
    | ok c =>
      rw [hd] at h
      simp only [Except.ok.injEq] at h
      rw [← h]

/-- Resolving `Auto` first and passing the resolved method are the same
call: the static policy never returns `Auto`. -/
theorem compress_auto_eq (cfg : CompressionConfig)
    (encB : List Nat → Option (List Nat)) (e : ℚ) (data : List Nat) :
    compress cfg encB e data .auto =
      compress cfg encB e data (select_method e data) := by
  rw [compress, compress]
  have h1 : (if (CompressionMethod.auto = .auto) then select_method e data
      else CompressionMethod.auto) = select_method e data := by simp
  have h2 : (if (select_method e data = .auto) then select_method e data
      else select_method e data) = select_method e data := by
    split <;> rfl
  rw [h1, h2]

/-- Successful dispatch wraps the codec bytes into the envelope. -/
theorem compress_ok_of_dispatch (cfg : CompressionConfig)
    (encB : List Nat → Option (List Nat)) (e : ℚ) (data : List Nat)
    (m : CompressionMethod) (c : List Nat) (hne : data ≠ []) (hm : ¬ m = .auto)
    (hd : dispatch cfg encB data m = .ok c) :
    compress cfg encB e data m = .ok
      { method := m
        original_size := data.length
        compressed_size := c.length
        data := c
        ratio := if data = [] then 1 else (c.length : ℚ) / (data.length : ℚ)
        metadata :=
          { entropy_bits := e
            semantic_dedup_count := 0
            block_count := max (data.length / cfg.lz4_block_size) 1 } } := by
  rw [compress, if_neg hne, if_neg hm, hd]

/-- Above 256 bytes, the detector fires exactly when the repetition
ratio exceeds 1/10 (the total-blocks positivity and 128-byte guards are
subsumed). -/
theorem detect_iff (d : List Nat) (h256 : 256 < d.length) :
    detect_block_repetition d = true ↔ 1 / 10 < repetitionRatio d := by
  rw [detect_block_repetition, if_neg (by omega)]
  have htot : ¬ d.length / 64 = 0 := by omega
  rw [repetitionRatio]
  simp only [decide_eq_true_eq, if_neg htot]
  constructor
  · rintro ⟨-, h⟩
    exact h
  · intro h
    exact ⟨by omega, h⟩

end Compressor

/-! ## The claims -/

/-- **C1.** For every non-empty byte buffer `d` (byte values below 256,
length below `2 ^ 32` so the `as u32` length casts in the wire formats
are exact) and every concrete method in {Huffman/SymbolCoding,
Lz4Semantic/BlockGeneral, EntropyCoding/RunLength,
SemanticDedupe/ContentDedup}, compressing `d` with `Compressor::compress`
and decompressing the resulting envelope with `Compressor::decompress`
returns exactly `d`. The configured block size is positive (default
65536) and the external DEFLATE block pair is an exact inverse producing
blocks below `2 ^ 32` bytes, per spec §6. -/
theorem C1_roundtrip (cfg : CompressionConfig)
    (encB decB : List Nat → Option (List Nat)) (e : ℚ) (d : List Nat)
    (hne : d ≠ []) (hb : ∀ b ∈ d, b < 256) (hlen : d.length < 2 ^ 32)
    (hbs : 0 < cfg.lz4_block_size)
    (henc : ∀ bl, bl ≠ [] → bl.length ≤ cfg.lz4_block_size →
      ∃ c, encB bl = some c ∧ decB c = some bl ∧ c.length < 2 ^ 32) :
    ∀ m ∈ [CompressionMethod.huffman, CompressionMethod.lz4Semantic,
        CompressionMethod.entropyCoding, CompressionMethod.semanticDedupe],
      ∃ out, Compressor.compress cfg encB e d m = .ok out ∧
        Compressor.decompress decB out = .ok d := by
  intro m hm
  simp only [List.mem_cons, List.mem_singleton, List.not_mem_nil, or_false] at hm
  rcases hm with rfl | rfl | rfl | rfl
  · -- Huffman
    obtain ⟨bytes, hc, hdec⟩ := huffman.huffman_roundtrip d hne hb
    have hdisp : Compressor.dispatch cfg encB d .huffman = .ok bytes := by
      rw [Compressor.dispatch, hc]
    exact ⟨_, Compressor.compress_ok_of_dispatch cfg encB e d .huffman bytes hne
      (by simp) hdisp, hdec⟩
  · -- LZ4 block wrapper
    obtain ⟨bytes, hc, hdec⟩ :=
      lz4_wrapper.lz4_roundtrip encB decB cfg.lz4_block_size d hbs hlen henc
    have hdisp : Compressor.dispatch cfg encB d .lz4Semantic = .ok bytes := by
      rw [Compressor.dispatch]
      exact hc
    exact ⟨_, Compressor.compress_ok_of_dispatch cfg encB e d .lz4Semantic bytes hne
      (by simp) hdisp, hdec⟩
  · -- run-length
    have hdisp : Compressor.dispatch cfg encB d .entropyCoding =
        .ok (entropy.compress d) := rfl
    exact ⟨_, Compressor.compress_ok_of_dispatch cfg encB e d .entropyCoding _ hne
      (by simp) hdisp, entropy.decompress_compress d⟩
  · -- content dedup
    have hdisp : Compressor.dispatch cfg encB d .semanticDedupe =
        .ok (semantic.compress d cfg.dedup_threshold) := rfl
    exact ⟨_, Compressor.compress_ok_of_dispatch cfg encB e d .semanticDedupe _ hne
      (by simp) hdisp, semantic.semantic_roundtrip d hlen cfg.dedup_threshold⟩

/-- Witness for C1 at a concrete input (identity block collaborator,
default configuration, the Huffman strategy). -/
theorem C1_roundtrip_witness :
    ∃ out, Compressor.compress CompressionConfig.default (fun bl => some bl) 0 [7, 7, 9]
        CompressionMethod.huffman = .ok out ∧
      Compressor.decompress (fun bl => some bl) out = .ok [7, 7, 9] :=
  C1_roundtrip CompressionConfig.default (fun bl => some bl) (fun bl => some bl) 0 [7, 7, 9]
    (by decide) (by decide) (by norm_num)
    (by rw [CompressionConfig.default]; norm_num)
    (fun bl hbl hlen => ⟨bl, rfl, rfl,
      lt_of_le_of_lt hlen (by rw [CompressionConfig.default]; norm_num)⟩)
    CompressionMethod.huffman (by simp)

/-- **C2.** The claim states that every decode path validates buffer
bounds before indexing and no decode path panics. The code violates it:
`huffman::decompress` reads the code-length byte without a bounds check
(`huffman.rs` line 186), so the three-byte input `[1, 0, 65]` — symbol
count 1, then a lone symbol byte — indexes one past the end of the
buffer and panics. The embedding evaluates to the `panic` outcome at
exactly that unchecked read. -/
theorem C2_panic_on_lone_symbol_byte :
    huffman.decompress [1, 0, 65] 0 = .panic := rfl

/-- **C3 counterexample.** The claim states that a payload with too few
bits to yield `original_size` symbols makes `huffman::decompress` return
a format error. It does not: with a well-formed one-entry table and an
empty payload, decompress returns `Ok` with 0 < 3 bytes. -/
theorem C3_short_payload_counterexample :
    huffman.decompress [1, 0, 97, 1, 0, 3, 0, 0, 0] 3 = .ok [] ∧
      ([] : List Nat).length < 3 := by
  exact ⟨rfl, by decide⟩

/-- **C3 amended.** A truncated payload does not produce an error:
`huffman::decompress` returns `Ok` with possibly fewer than
`original_size` bytes when the payload bits run out; the output never
exceeds `original_size` bytes (for `original_size ≥ 1`), since the
decode loop breaks exactly on reaching the target. -/
theorem C3_decompress_length_le (data : List Nat) (n : Nat) (out : List Nat)
    (hn : 1 ≤ n) (hok : huffman.decompress data n = .ok out) :
    out.length ≤ n :=
  huffman.decompress_length_le data n out hn hok

/-- Witness for the amended C3 at the counterexample input. -/
theorem C3_decompress_length_le_witness :
    (1 : Nat) ≤ 3 ∧ ([] : List Nat).length ≤ 3 :=
  ⟨by decide, C3_decompress_length_le [1, 0, 97, 1, 0, 3, 0, 0, 0] 3 [] (by decide) rfl⟩

/-- **C4.** `compress_adaptive` runs each candidate's encode in list
order (the fold over `candidates`), skips any candidate whose encode
fails (the `filterMap` of successes), returns the successful result of
smallest ratio with the first in list order winning exact ties
(everything earlier in the success list is strictly worse, nothing is
better), and fails — always with the empty-input error — exactly when
the input is empty or every candidate fails. -/
theorem C4_adaptive_selection (cfg : CompressionConfig)
    (encB : List Nat → Option (List Nat)) (e : ℚ) (d : List Nat) :
    (Compressor.compress_adaptive cfg encB e d = .error .emptyInput ↔
      (d = [] ∨ ∀ m ∈ Compressor.candidates e d,
        (Compressor.compress cfg encB e d m).toOption = none)) ∧
    (∀ err, Compressor.compress_adaptive cfg encB e d = .error err →
      err = .emptyInput) ∧
    (∀ res, Compressor.compress_adaptive cfg encB e d = .ok res →
      ∃ pre post,
        (Compressor.candidates e d).filterMap
            (fun m => (Compressor.compress cfg encB e d m).toOption) =
          pre ++ res :: post ∧
        (∀ s ∈ pre, res.ratio < s.ratio) ∧
        (∀ s ∈ pre ++ res :: post, res.ratio ≤ s.ratio)) := by
  by_cases hd : d = []
  · subst hd
    have hA : Compressor.compress_adaptive cfg encB e [] = .error .emptyInput := by
      rw [Compressor.compress_adaptive, if_pos rfl]
    refine ⟨?_, ?_, ?_⟩
    · rw [hA]
      constructor
      · intro _
        exact Or.inl rfl
      · intro _
        rfl
    · intro err herr
      rw [hA] at herr
      simp only [Except.error.injEq] at herr
      exact herr.symm
    · intro res hres
      rw [hA] at hres
      simp at hres
  · have hA : Compressor.compress_adaptive cfg encB e d =
        match ((Compressor.candidates e d).filterMap
            (fun m => (Compressor.compress cfg encB e d m).toOption)).foldl
            Compressor.pick none with
        | some b => .ok b
        | none => .error .emptyInput := by
      rw [Compressor.compress_adaptive, if_neg hd, Compressor.adaptive_fold_eq]
    cases hF : ((Compressor.candidates e d).filterMap
        (fun m => (Compressor.compress cfg encB e d m).toOption)).foldl
        Compressor.pick none with
    | none =>
      have hAe : Compressor.compress_adaptive cfg encB e d = .error .emptyInput := by
        rw [hA, hF]
      have hsucc : (Compressor.candidates e d).filterMap
          (fun m => (Compressor.compress cfg encB e d m).toOption) = [] :=
        (Compressor.foldl_pick_none _).1.mp hF
      refine ⟨?_, ?_, ?_⟩
      · rw [hAe]
        constructor
        · intro _
          exact Or.inr (List.filterMap_eq_nil.mp hsucc)
        · intro _
          rfl
      · intro err herr
        rw [hAe] at herr
        simp only [Except.error.injEq] at herr
        exact herr.symm
      · intro res hres
        rw [hAe] at hres
        simp at hres
    | some c =>
      have hAo : Compressor.compress_adaptive cfg encB e d = .ok c := by
        rw [hA, hF]
      obtain ⟨pre, post, hsplit, hpre, hall⟩ := (Compressor.foldl_pick_none _).2 c hF
      refine ⟨?_, ?_, ?_⟩
      · rw [hAo]
        constructor
        · intro h
          simp at h
        · intro h
          exfalso
          rcases h with h | h
          · exact hd h
          · have hnil := List.filterMap_eq_nil.mpr h
            rw [hsplit] at hnil
            simp at hnil
      · intro err herr
        rw [hAo] at herr
        simp at herr
      · intro res hres
        rw [hAo] at hres
        simp only [Except.ok.injEq] at hres
        subst hres
        refine ⟨pre, post, hsplit, hpre, ?_⟩
        rw [← hsplit]
        exact hall

/-- Witness for C4: low entropy gives the single candidate list
`[Huffman]`, which succeeds; its result is the first minimum of the
one-element success list. -/
theorem C4_adaptive_selection_witness :
    ∃ res pre post,
      (Compressor.candidates 1 [5, 5, 5, 5]).filterMap
          (fun m => (Compressor.compress CompressionConfig.default
            (fun bl => some bl) 1 [5, 5, 5, 5] m).toOption) =
        pre ++ res :: post ∧
      (∀ s ∈ pre, res.ratio < s.ratio) ∧
      (∀ s ∈ pre ++ res :: post, res.ratio ≤ s.ratio) := by
  obtain ⟨bytes, hc, -⟩ := huffman.huffman_roundtrip [5, 5, 5, 5] (by decide) (by decide)
  have hdisp : Compressor.dispatch CompressionConfig.default (fun bl => some bl)
      [5, 5, 5, 5] .huffman = .ok bytes := by
    rw [Compressor.dispatch, hc]
  have hcomp := Compressor.compress_ok_of_dispatch CompressionConfig.default
    (fun bl => some bl) 1 [5, 5, 5, 5] .huffman bytes (by decide) (by simp) hdisp
  have hcand : Compressor.candidates 1 [5, 5, 5, 5] = [.huffman] := by
    rw [Compressor.candidates, if_pos (by norm_num)]
  have hadapt : Compressor.compress_adaptive CompressionConfig.default
      (fun bl => some bl) 1 [5, 5, 5, 5] =
      Compressor.compress CompressionConfig.default (fun bl => some bl) 1 [5, 5, 5, 5]
        .huffman := by
    rw [Compressor.compress_adaptive, if_neg (by decide), hcand]
    simp only [List.foldl_cons, List.foldl_nil, hcomp]
    rfl
  exact ⟨_, (C4_adaptive_selection CompressionConfig.default (fun bl => some bl) 1
    [5, 5, 5, 5]).2.2 _ (hadapt.trans hcomp)⟩

/-- **C5.** For every non-empty input, `compress_adaptive` builds
exactly the ordered candidate list of the spec: `[SymbolCoding]` when
`e < 2.0`; else `[ContentDedup, BlockGeneral]` when the 64-byte
full-block FNV-1a repetition ratio exceeds 0.1 and `n > 256`; else
`[BlockGeneral, SymbolCoding]` when `n > 4096`; else
`[RunLength, SymbolCoding]`. -/
theorem C5_candidate_list (e : ℚ) (d : List Nat) (hne : d ≠ []) :
    Compressor.candidates e d =
      if e < 2 then [CompressionMethod.huffman]
      else if 1 / 10 < Compressor.repetitionRatio d ∧ 256 < d.length then
        [CompressionMethod.semanticDedupe, CompressionMethod.lz4Semantic]
      else if 4096 < d.length then
        [CompressionMethod.lz4Semantic, CompressionMethod.huffman]
      else [CompressionMethod.entropyCoding, CompressionMethod.huffman] := by
  rw [Compressor.candidates]
  by_cases he : e < 2
  · rw [if_pos he, if_pos he]
  · rw [if_neg he, if_neg he]
    by_cases h256 : 256 < d.length
    · have hdi := Compressor.detect_iff d h256
      by_cases hr : 1 / 10 < Compressor.repetitionRatio d
      · rw [if_pos (show Compressor.detect_block_repetition d = true ∧ d.length > 256 from
          ⟨hdi.mpr hr, h256⟩)]
        rw [if_pos (show 1 / 10 < Compressor.repetitionRatio d ∧ 256 < d.length from
          ⟨hr, h256⟩)]
      · rw [if_neg (show ¬ (Compressor.detect_block_repetition d = true ∧ d.length > 256) from
          fun hcon => hr (hdi.mp hcon.1))]
        rw [if_neg (show ¬ (1 / 10 < Compressor.repetitionRatio d ∧ 256 < d.length) from
          fun hcon => hr hcon.1)]
    · rw [if_neg (show ¬ (Compressor.detect_block_repetition d = true ∧ d.length > 256) from
        fun hcon => h256 hcon.2)]
      rw [if_neg (show ¬ (1 / 10 < Compressor.repetitionRatio d ∧ 256 < d.length) from
        fun hcon => h256 hcon.2)]

/-- Witness for C5 at a concrete low-entropy input. -/
theorem C5_candidate_list_witness :
    Compressor.candidates 0 [1] =
      if (0 : ℚ) < 2 then [CompressionMethod.huffman]
      else if 1 / 10 < Compressor.repetitionRatio [1] ∧ 256 < ([1] : List Nat).length then
        [CompressionMethod.semanticDedupe, CompressionMethod.lz4Semantic]
      else if 4096 < ([1] : List Nat).length then
        [CompressionMethod.lz4Semantic, CompressionMethod.huffman]
      else [CompressionMethod.entropyCoding, CompressionMethod.huffman] :=
  C5_candidate_list 0 [1] (by decide)

/-- **C6.** The static policy `select_method` returns SymbolCoding
(Huffman) when `e < 3.0`, otherwise BlockGeneral (Lz4Semantic) when
`n > 4096`, otherwise RunLength (EntropyCoding). It is a pure function
of the entropy value and the input (no trial compression is run). -/
theorem C6_select_method (e : ℚ) (d : List Nat) :
    (e < 3 → Compressor.select_method e d = .huffman) ∧
    (¬ e < 3 → 4096 < d.length → Compressor.select_method e d = .lz4Semantic) ∧
    (¬ e < 3 → ¬ 4096 < d.length → Compressor.select_method e d = .entropyCoding) :=
  ⟨fun h => by rw [Compressor.select_method, if_pos h],
    fun h1 h2 => by rw [Compressor.select_method, if_neg h1, if_pos h2],
    fun h1 h2 => by rw [Compressor.select_method, if_neg h1, if_neg h2]⟩

/-- Witness for C6 at a concrete entropy below 3. -/
theorem C6_select_method_witness :
    Compressor.select_method 1 [] = CompressionMethod.huffman :=
  (C6_select_method 1 []).1 (by norm_num)

theorem filter_eq_singleton (p : Nat → Bool) (l : List Nat) (b : Nat)
    (hnd : l.Nodup) (hmem : b ∈ l) (hp : ∀ i ∈ l, p i = true ↔ i = b) :
    l.filter p = [b] := by
  induction l with
  | nil => simp at hmem
  | cons a t ih =>
    simp only [List.nodup_cons] at hnd
    rw [List.filter_cons]
    by_cases hab : a = b
    · subst hab
      rw [if_pos ((hp a (by simp)).mpr rfl)]
      have hnil : t.filter p = [] := by
        apply List.filter_eq_nil.mpr
        intro x hx
        intro hpx
        exact hnd.1 (((hp x (by simp [hx])).mp hpx) ▸ hx)
      rw [hnil]
    · have hpa : ¬ p a = true := fun hpa => hab ((hp a (by simp)).mp hpa)
      rw [if_neg hpa]
      have hbt : b ∈ t := by
        rcases List.mem_cons.mp hmem with h | h
        · exact absurd h.symm hab
        · exact h
      exact ih hnd.2 hbt (fun i hi => hp i (by simp [hi]))

/-- A buffer holding a single distinct byte value has that byte as its
only present symbol. -/
theorem present_single (d : List Nat) (b : Nat) (hne : d ≠ [])
    (hall : ∀ x ∈ d, x = b) (hb : b < 256) :
    huffman.present d = [b] := by
  have hbd : b ∈ d := by
    cases d with
    | nil => exact absurd rfl hne
    | cons x xs => rw [← hall x (by simp)]; simp
  apply filter_eq_singleton _ _ b (List.nodup_range 256) (List.mem_range.mpr hb)
  intro i hi
  simp only [decide_eq_true_eq]
  constructor
  · intro hcount
    exact hall i (List.count_pos_iff_mem.mp hcount)
  · intro hib
    subst hib
    exact List.count_pos_iff_mem.mpr hbd

/-- **C7.** For every non-empty input holding exactly one distinct byte
value `b` (< 256), `build_tree` synthesizes the two-leaf tree with that
byte's leaf on the left under a zero-frequency placeholder sibling, so
the byte's code is the single bit 0; and the spec's concrete example —
encoding 100 copies of `0xFF` then decoding with `original_size = 100`
— returns the original bytes. -/
theorem C7_single_symbol (d : List Nat) (b : Nat) (hne : d ≠ [])
    (hall : ∀ x ∈ d, x = b) (hb : b < 256) :
    huffman.build_tree d =
      some (.node d.length (.leaf d.length (some b)) (.leaf 0 none)) ∧
    huffman.buildCodes
      (.node d.length (.leaf d.length (some b)) (.leaf 0 none)) [] = [(b, [false])] ∧
    (∃ out, huffman.compress (List.replicate 100 255) = some out ∧
      huffman.decompress out 100 = .ok (List.replicate 100 255)) := by
  have hcount : d.count b = d.length :=
    List.count_eq_length.mpr (fun y hy => (hall y hy).symm)
  have hIL : huffman.initLeaves d = [.leaf d.length (some b)] := by
    rw [huffman.initLeaves_eq, present_single d b hne hall hb]
    simp [hcount]
  refine ⟨?_, ?_, ?_⟩
  · rw [huffman.build_tree, hIL]
    simp [huffman.HuffNode.freq]
  · simp [huffman.buildCodes]
  · have h := huffman.huffman_roundtrip (List.replicate 100 255) (by simp)
      (by
        intro x hx
        have := List.eq_of_mem_replicate hx
        omega)
    simpa using h

/-- Witness for C7 at the two-byte uniform buffer `[255, 255]`. -/
theorem C7_single_symbol_witness :
    huffman.build_tree [255, 255] =
      some (.node ([255, 255] : List Nat).length
        (.leaf ([255, 255] : List Nat).length (some 255)) (.leaf 0 none)) ∧
    huffman.buildCodes
      (.node ([255, 255] : List Nat).length
        (.leaf ([255, 255] : List Nat).length (some 255)) (.leaf 0 none)) [] =
      [(255, [false])] ∧
    (∃ out, huffman.compress (List.replicate 100 255) = some out ∧
      huffman.decompress out 100 = .ok (List.replicate 100 255)) :=
  C7_single_symbol [255, 255] 255 (by decide) (by decide) (by decide)

/-- **C8.** `compress(data, Auto)` resolves `Auto` through the static
policy before dispatch (the call equals the call with the resolved
method), a successful envelope never stores `Auto`, and decompressing
any envelope whose stored method is `Auto` fails with the
invalid-method error. -/
theorem C8_auto_resolution (cfg : CompressionConfig)
    (encB decB : List Nat → Option (List Nat)) (e : ℚ) (d : List Nat) :
    Compressor.compress cfg encB e d .auto =
      Compressor.compress cfg encB e d (Compressor.select_method e d) ∧
    (∀ out, Compressor.compress cfg encB e d .auto = .ok out →
      out.method ≠ .auto) ∧
    (∀ out : CompressedOutput, out.method = .auto →
      Compressor.decompress decB out = .error .invalidMethod) := by
  refine ⟨Compressor.compress_auto_eq cfg encB e d, ?_, ?_⟩
  · intro out hout
    have hm := Compressor.compress_ok_method cfg encB e d .auto out hout
    rw [if_pos rfl] at hm
    rw [hm]
    exact Compressor.select_method_ne_auto e d
  · intro out hm
    rw [Compressor.decompress, hm]

/-- Witness for C8: decompressing a hand-built envelope tagged `Auto`
is the invalid-method error. -/
theorem C8_auto_resolution_witness :
    Compressor.decompress (fun bl => some bl)
      { method := .auto
        original_size := 0
        compressed_size := 0
        data := []
        ratio := 0
        metadata := { entropy_bits := 0, semantic_dedup_count := 0, block_count := 0 } } =
      .error .invalidMethod :=
  (C8_auto_resolution CompressionConfig.default (fun bl => some bl)
    (fun bl => some bl) 0 []).2.2 _ rfl

/-- **C9 counterexample.** The claim states that inputs longer than the
configured `max_input_size` are rejected before any strategy runs. They
are not: with `max_input_size := 1`, compressing the two-byte input
`[1, 2]` succeeds. -/
theorem C9_no_size_check_counterexample :
    (∃ out, Compressor.compress
      { CompressionConfig.default with max_input_size := 1 }
      (fun bl => some bl) 0 [1, 2] .huffman = .ok out) ∧
    ({ CompressionConfig.default with max_input_size := 1 } :
      CompressionConfig).max_input_size < ([1, 2] : List Nat).length := by
  constructor
  · obtain ⟨bytes, hc, -⟩ := huffman.huffman_roundtrip [1, 2] (by decide) (by decide)
    have hdisp : Compressor.dispatch
        { CompressionConfig.default with max_input_size := 1 }
        (fun bl => some bl) [1, 2] .huffman = .ok bytes := by
      rw [Compressor.dispatch, hc]
    exact ⟨_, Compressor.compress_ok_of_dispatch _ _ 0 [1, 2] .huffman bytes
      (by decide) (by simp) hdisp⟩
  · decide

/-- **C9 amended.** `Compressor::compress` never reads
`max_input_size`: its result is unchanged under any modification of
that configuration field (so no size ceiling is enforced before
dispatch; only the empty-input check guards the strategies). -/
theorem C9_max_input_size_unenforced (cfg : CompressionConfig) (k : Nat)
    (encB : List Nat → Option (List Nat)) (e : ℚ) (d : List Nat)
    (m : CompressionMethod) :
    Compressor.compress { cfg with max_input_size := k } encB e d m =
      Compressor.compress cfg encB e d m := rfl

/-- **C10.** `huffman::decompress` ignores the 4-byte stored-length
field: for any two inputs that agree on the (fully consumed) symbol
table and the payload and differ only in those 4 bytes, the result is
identical — the output depends only on the table, the payload bits and
the caller-supplied `original_size`. -/
theorem C10_stored_length_ignored (b0 b1 : Nat) (tb l4 l4' payload : List Nat)
    (tbl : List (List Bool × Nat)) (n : Nat)
    (htb : huffman.readTable (b0 + 256 * b1) tb [] = .ok (tbl, []))
    (hl4 : l4.length = 4) (hl4' : l4'.length = 4) :
    huffman.decompress (b0 :: b1 :: (tb ++ (l4 ++ payload))) n =
      huffman.decompress (b0 :: b1 :: (tb ++ (l4' ++ payload))) n :=
  huffman.decompress_ignores_length b0 b1 tb l4 l4' payload tbl n htb hl4 hl4'

/-- Witness for C10: two wire buffers differing only in the stored
length field decode identically. -/
theorem C10_stored_length_ignored_witness :
    huffman.decompress [1, 0, 97, 1, 0, 0, 0, 0, 0, 1] 2 =
      huffman.decompress [1, 0, 97, 1, 0, 9, 9, 9, 9, 1] 2 :=
  C10_stored_length_ignored 1 0 [97, 1, 0] [0, 0, 0, 0] [9, 9, 9, 9] [1]
    [([false], 97)] 2 rfl rfl rfl

end SigmaCompress
